import Mathlib

/-!
# Verification of the cy-utils utility module

This file gives a shallow embedding of the utility functions of the
repository (`debounce`, `throttle`, `deepClone`, `arrayToTree`,
`formatBytes`, `getSelectedItems`) and proves or refutes the frozen
behavioural claims about them.

Modelling conventions:
* JavaScript values are modelled by `JSVal`; objects and arrays live on an
  explicit heap (`Heap`, a list of `HObj` cells) so that aliasing and
  in-place mutation are represented faithfully.
* `number` values appearing as record fields are modelled by `Int`
  (the claims only involve integral ids);
  `formatBytes` works on exact rationals `ℚ` since its arithmetic
  (repeated division by 1024) is exact in the source as well for the
  inputs of interest.
* Fallible operations return `Except String`; a thrown JS exception is an
  `.error`.  Recursion that may diverge on cyclic heaps (`deepClone`)
  takes an explicit fuel and returns `Option`; `none` models stack
  exhaustion.
-/

/-! ## formatBytes -/

/-- Counts how many times `p` divides `n` (with fuel, enough when
`fuel ≥ n`): returns `(k, m)` where `n = p ^ k * m` and `p` no longer
divides `m`. -/
def countFac : Nat → Nat → Nat → Nat × Nat
  | 0, _, n => (0, n)
  | fuel + 1, p, n =>
    if 2 ≤ p ∧ p ∣ n ∧ n ≠ 0 then
      let r := countFac fuel p (n / p)
      (r.1 + 1, r.2)
    else (0, n)

/-- Fractional digit block: decimal digits of `n` left-padded with zeros to
width `f`. -/
def fracStr (n : Nat) (f : Nat) : String :=
  let s := toString n
  String.mk (List.replicate (f - s.length) '0') ++ s

/-- Number of decimal digits of the minimal terminating decimal expansion
of `q` (`0` when the expansion does not terminate, which cannot happen for
values of JS `number` arithmetic). -/
def decDigits (q : ℚ) : Nat :=
  let d := q.den
  let t := countFac d 2 d
  let f := countFac t.2 5 t.2
  if f.2 = 1 then max t.1 f.1 else 0

/-- Default JS number-to-string rendering for a nonnegative rational:
integers print without a decimal point, other values print their
(minimal) terminating decimal expansion. -/
def ratToDecStrNN (q : ℚ) : String :=
  if q.den = 1 then toString q.num
  else
    let f := decDigits q
    if f = 0 then toString q.num ++ "/" ++ toString q.den
    else
      let m : Int := q.num * (10 : Int) ^ f / (q.den : Int)
      toString (m / (10 : Int) ^ f) ++ "." ++ fracStr (m % (10 : Int) ^ f).toNat f

/-- Default JS number-to-string rendering (template-literal `${n}`). -/
def ratToDecStr (q : ℚ) : String :=
  if q < 0 then "-" ++ ratToDecStrNN (-q) else ratToDecStrNN q

/-- Digits of `toFixed` for a nonnegative numerator `n` of `n / 10 ^ dm`. -/
def fixedNN (n : Nat) (dm : Nat) : String :=
  if dm = 0 then toString n
  else toString (n / 10 ^ dm) ++ "." ++ fracStr (n % 10 ^ dm) dm

/-- JS `Number.prototype.toFixed`: rounds to `dm` decimal digits, ties
towards the larger value, and always prints exactly `dm` fractional
digits. -/
def toFixed (q : ℚ) (dm : Nat) : String :=
  let m : Int := ⌊q * (10 : ℚ) ^ dm + 1 / 2⌋
  if m < 0 then "-" ++ fixedNN (-m).toNat dm else fixedNN m.toNat dm

/-- `String.prototype.endsWith`, modelled on the character list (the
built-in `String.endsWith` does not reduce in the kernel). -/
def strEndsWith (s t : String) : Bool := t.data.isSuffixOf s.data

/-- `s.split('.')[0]`: the prefix of `s` before the first `'.'`. -/
def headBeforeDot (s : String) : String :=
  String.mk (s.data.takeWhile (fun c => c != '.'))

/-- The unit table of `formatBytes`. -/
def byteUnits : List String := ["B", "KB", "MB", "GB", "TB", "PB", "EB", "ZB", "YB"]

/-- The `while (bytes >= k && i < units.length - 1)` loop of
`formatBytes`; 8 fuel steps make the fuel irrelevant because the loop
body increments `i` and the guard requires `i < 8`. -/
def scaleLoop : Nat → ℚ → Nat → ℚ × Nat
  | 0, b, i => (b, i)
  | fuel + 1, b, i =>
    if 1024 ≤ b ∧ i < 8 then scaleLoop fuel (b / 1024) (i + 1) else (b, i)

/-- `formatBytes` from `src/unnamed/part_000` lines 146-159, translated
clause by clause: the zero shortcut, `dm = decimal && decimal > 0 ?
decimal : 0`, the scaling loop, and the three rendering branches
(`dm === 0`, `Number.isInteger(bytes)`, and the `toFixed`/`endsWith`
branch that drops an all-zero fraction). -/
def formatBytes (bytes : ℚ) (decimal : Int := 2) : String :=
  if bytes = 0 then "0B"
  else
    let dm : Nat := if decimal ≠ 0 ∧ 0 < decimal then decimal.toNat else 0
    let p := scaleLoop 8 bytes 0
    let u := byteUnits.getD p.2 ""
    if dm = 0 then ratToDecStr p.1 ++ u
    else if p.1.den = 1 then ratToDecStr p.1 ++ u
    else
      let fx := toFixed p.1 dm
      if strEndsWith fx (String.mk (List.replicate dm '0')) then
        headBeforeDot fx ++ u
      else fx ++ u

/-- The scaling loop divides by `1024` once per counted step. -/
theorem scaleLoop_spec (fuel : Nat) :
    ∀ (b : ℚ) (i : Nat), ∃ j, j ≤ fuel ∧
      scaleLoop fuel b i = (b / 1024 ^ j, i + j) := by
  induction fuel with
  | zero => intro b i; exact ⟨0, le_rfl, by simp [scaleLoop]⟩
  | succ n ih =>
    intro b i
    by_cases h : 1024 ≤ b ∧ i < 8
    · obtain ⟨j, hj, heq⟩ := ih (b / 1024) (i + 1)
      refine ⟨j + 1, by omega, ?_⟩
      rw [scaleLoop, if_pos h, heq, div_div, ← pow_succ']
      have harith : i + 1 + j = i + (j + 1) := by omega
      rw [harith]
    · exact ⟨0, by omega, by rw [scaleLoop, if_neg h]; simp⟩

/-- Concrete evaluation: `formatBytes(1024) === "1KB"`. -/
theorem formatBytes_eval_1024 : formatBytes 1024 = "1KB" := by
  have h : scaleLoop 8 1024 0 = (1, 1) := by norm_num [scaleLoop]
  simp only [formatBytes, h]
  norm_num [ratToDecStr, ratToDecStrNN, byteUnits]
  decide

/-- Concrete evaluation: `formatBytes(1536, 2)` is `"1.50KB"` (the
`toFixed(2)` digits `"50"` are not the all-zero block, so they stay). -/
theorem formatBytes_eval_1536_2 : formatBytes 1536 2 = "1.50KB" := by
  have h : scaleLoop 8 1536 0 = (3 / 2, 1) := by norm_num [scaleLoop]
  have hd : (3 / 2 : ℚ).den = 2 := by norm_num
  have hfx : toFixed (3 / 2) 2 = "1.50" := by
    have hm : ⌊(3 / 2 : ℚ) * (10 : ℚ) ^ 2 + 1 / 2⌋ = (150 : Int) := by norm_num
    simp only [toFixed, hm]
    norm_num [fixedNN, fracStr]
    decide
  simp only [formatBytes, h, hd]
  have hdm : (if (2 : Int) ≠ 0 ∧ (0 : Int) < 2 then Int.toNat 2 else 0) = 2 := by decide
  rw [hdm, hfx]
  norm_num [byteUnits]
  decide

/-- Concrete evaluation: `formatBytes(1000, 0) === "1000B"`. -/
theorem formatBytes_eval_1000_0 : formatBytes 1000 0 = "1000B" := by
  have h : scaleLoop 8 1000 0 = (1000, 0) := by norm_num [scaleLoop]
  simp only [formatBytes, h]
  norm_num [ratToDecStr, ratToDecStrNN, byteUnits]
  decide

/-- Concrete evaluation: `formatBytes(1536, 0)` renders the scaled value
`1.5` with its fractional digit. -/
theorem formatBytes_eval_1536_0 : formatBytes 1536 0 = "1.5KB" := by
  have h : scaleLoop 8 1536 0 = (3 / 2, 1) := by norm_num [scaleLoop]
  have hd : (3 / 2 : ℚ).den = 2 := by norm_num
  have hn : (3 / 2 : ℚ).num = 3 := by norm_num
  simp only [formatBytes, h]
  norm_num [ratToDecStr, ratToDecStrNN, byteUnits, decDigits, hd, hn, countFac, fracStr]
  decide

/-- Claim C2 (corrected): the concrete `formatBytes` values.  The spec's
value for `formatBytes(1536, 2)` is `"1.5KB"`, but the source keeps the
two fixed fractional digits produced by `toFixed(2)` because `"1.50"`
does not end in the all-zero block `"00"`; the actual result is
`"1.50KB"`. -/
theorem formatBytes_values :
    formatBytes 0 = "0B" ∧ formatBytes 1024 = "1KB" ∧
      formatBytes 1536 2 = "1.50KB" ∧ formatBytes 1000 0 = "1000B" :=
  ⟨by norm_num [formatBytes], formatBytes_eval_1024, formatBytes_eval_1536_2,
    formatBytes_eval_1000_0⟩

/-- Counterexample to claim C2 as stated: `formatBytes(1536, 2)` is
`"1.50KB"`, not `"1.5KB"`. -/
theorem formatBytes_1536_not_short :
    formatBytes 1536 2 = "1.50KB" ∧ formatBytes 1536 2 ≠ "1.5KB" :=
  ⟨formatBytes_eval_1536_2, by rw [formatBytes_eval_1536_2]; decide⟩

/-- Claim C3 (corrected): with `decimals ≤ 0` the source renders the
scaled value `bytes / 1024 ^ i` with the default number-to-string
conversion (no `toFixed` rounding), so fractional digits do appear
whenever the scaled value is not whole; only for whole scaled values is
the rendering the bare integer part. -/
theorem formatBytes_nonpos_decimal (bytes : ℚ) (decimal : Int)
    (hd : decimal ≤ 0) :
    bytes ≠ 0 →
      ∃ j, j ≤ 8 ∧
        formatBytes bytes decimal = ratToDecStr (bytes / 1024 ^ j) ++ byteUnits.getD j "" := by
  intro hb
  obtain ⟨j, hj, heq⟩ := scaleLoop_spec 8 bytes 0
  refine ⟨j, hj, ?_⟩
  rw [formatBytes, if_neg hb]
  have hdm : ¬(decimal ≠ 0 ∧ 0 < decimal) := by
    rintro ⟨-, h2⟩; omega
  simp only [hdm, if_false, heq, if_pos rfl]
  simp

/-- Witness for `formatBytes_nonpos_decimal` at `bytes = 1536`,
`decimal = 0`. -/
theorem formatBytes_nonpos_decimal_witness :
    ∃ j, j ≤ 8 ∧
      formatBytes 1536 0 = ratToDecStr (1536 / 1024 ^ j) ++ byteUnits.getD j "" :=
  formatBytes_nonpos_decimal 1536 0 (by norm_num) (by norm_num)

/-- Counterexample to claim C3 as stated: `formatBytes(1536, 0)` renders
`"1.5KB"`, which is not the integer-part rendering `"1KB"`; the scaled
value `1.5` is printed with its fractional digit. -/
theorem formatBytes_1536_0_fractional :
    formatBytes 1536 0 = "1.5KB" ∧ formatBytes 1536 0 ≠ "1KB" :=
  ⟨formatBytes_eval_1536_0, by rw [formatBytes_eval_1536_0]; decide⟩

/-! ## The heap model of JS values

Objects and arrays are heap cells addressed by `ref`; primitives are
immediate.  This makes aliasing and in-place mutation (which
`arrayToTree` relies on) expressible. -/

/-- A JavaScript value: a primitive or a reference to a heap cell.
Numbers are modelled by `Int`; the claims under study only involve
integral numbers. -/
inductive JSVal where
  | num (n : Int)
  | str (s : String)
  | bool (b : Bool)
  | null
  | undefined
  | ref (r : Nat)
deriving DecidableEq, Repr

/-- A heap cell: a plain object (ordered association list of fields) or an
array. -/
inductive HObj where
  | obj (fields : List (String × JSVal))
  | arr (elems : List JSVal)
deriving DecidableEq, Repr

/-- The heap: cell `r` of `h` is `h[r]?`. -/
abbrev Heap := List HObj

/-- JS truthiness.  References (objects, arrays) are always truthy. -/
def truthy : JSVal → Bool
  | .num n => n != 0
  | .str s => s != ""
  | .bool b => b
  | .null => false
  | .undefined => false
  | .ref _ => true

/-- JS `typeof` (functions are not modelled, so references are always
`"object"`). -/
def typeofV : JSVal → String
  | .num _ => "number"
  | .str _ => "string"
  | .bool _ => "boolean"
  | .null => "object"
  | .undefined => "undefined"
  | .ref _ => "object"

/-- JS `value instanceof Array`. -/
def isArrayRef (h : Heap) : JSVal → Bool
  | .ref r =>
    match h[r]? with
    | some (.arr _) => true
    | _ => false
  | _ => false

/-- First-match association-list lookup of an object field. -/
def lookupField : List (String × JSVal) → String → Option JSVal
  | [], _ => none
  | (k, v) :: fs, key => if k = key then some v else lookupField fs key

/-- Replace the value of field `key`, or append it when absent (JS
property write on a plain object). -/
def setField : List (String × JSVal) → String → JSVal → List (String × JSVal)
  | [], key, v => [(key, v)]
  | (k, w) :: fs, key, v =>
    if k = key then (k, v) :: fs else (k, w) :: setField fs key v

/-- JS property read `v[k]`.  Missing fields and reads on primitives give
`undefined`; reads on `null`/`undefined` throw a `TypeError`. -/
def getProp (h : Heap) (v : JSVal) (k : String) : Except String JSVal :=
  match v with
  | .ref r =>
    match h[r]? with
    | some (.obj fs) => .ok ((lookupField fs k).getD .undefined)
    | some (.arr _) => .ok .undefined
    | none => .error "invalid reference"
  | .null => .error "TypeError: Cannot read properties of null"
  | .undefined => .error "TypeError: Cannot read properties of undefined"
  | _ => .ok .undefined

/-- JS property write `v[k] = w` (strict mode: writes to primitives,
`null` and `undefined` throw). -/
def setProp (h : Heap) (v : JSVal) (k : String) (w : JSVal) : Except String Heap :=
  match v with
  | .ref r =>
    match h[r]? with
    | some (.obj fs) => .ok (h.set r (.obj (setField fs k w)))
    | some (.arr _) => .error "unsupported property assignment on array"
    | none => .error "invalid reference"
  | .null => .error "TypeError: Cannot set properties of null"
  | .undefined => .error "TypeError: Cannot set properties of undefined"
  | _ => .error "TypeError: Cannot create property on a primitive"

/-- JS `v.push(x)` for an array reference; anything else throws. -/
def pushElem (h : Heap) (v : JSVal) (x : JSVal) : Except String Heap :=
  match v with
  | .ref r =>
    match h[r]? with
    | some (.arr es) => .ok (h.set r (.arr (es ++ [x])))
    | some (.obj _) => .error "TypeError: push is not a function"
    | none => .error "invalid reference"
  | .null => .error "TypeError: Cannot read properties of null"
  | .undefined => .error "TypeError: Cannot read properties of undefined"
  | _ => .error "TypeError: push is not a function"

/-- Allocate a fresh heap cell, returning the extended heap and the new
reference. -/
def allocCell (h : Heap) (o : HObj) : Heap × JSVal := (h ++ [o], .ref h.length)

/-- The element list of an array value; `forEach` on anything else
throws. -/
def getElems (h : Heap) (v : JSVal) : Except String (List JSVal) :=
  match v with
  | .ref r =>
    match h[r]? with
    | some (.arr es) => .ok es
    | some (.obj _) => .error "TypeError: forEach is not a function"
    | none => .error "invalid reference"
  | .null => .error "TypeError: Cannot read properties of null"
  | .undefined => .error "TypeError: Cannot read properties of undefined"
  | _ => .error "TypeError: forEach is not a function"

/-- JS `Map.prototype.set`: overwrite in place or append (keys compared
with SameValueZero, which on the modelled values is plain equality). -/
def mapSet : List (JSVal × JSVal) → JSVal → JSVal → List (JSVal × JSVal)
  | [], k, v => [(k, v)]
  | (k0, v0) :: m, k, v =>
    if k0 = k then (k0, v) :: m else (k0, v0) :: mapSet m k v

/-- JS `Map.prototype.get`; missing keys give `undefined`. -/
def mapGet : List (JSVal × JSVal) → JSVal → JSVal
  | [], _ => .undefined
  | (k0, v0) :: m, k => if k0 = k then v0 else mapGet m k

/-- Total field read used to state theorems: the field's value for an
object reference, `undefined` otherwise. -/
def fieldVal (h : Heap) (v : JSVal) (k : String) : JSVal :=
  match v with
  | .ref r =>
    match h[r]? with
    | some (.obj fs) => (lookupField fs k).getD .undefined
    | _ => .undefined
  | _ => .undefined

/-- A value whose properties can be read without throwing: neither
`null`/`undefined` nor a dangling reference. -/
def readable (h : Heap) : JSVal → Bool
  | .null => false
  | .undefined => false
  | .ref r => r < h.length
  | _ => true

/-! ## getSelectedItems -/

/-- Result of `getSelectedItems`: a single mapped value or (for a
sequence-valued `options.value`, were it reachable) a list of mapped
values. -/
inductive GSIResult where
  | single (v : JSVal)
  | multi (vs : List JSVal)
deriving DecidableEq, Repr

/-- The error message thrown by `getSelectedItems` for a `value` of an
unexpected type `t`. -/
def gsiTypeError (t : String) : String :=
  "value类型错误：期望得到“string | number | (string | number)[]”类型，但得到了" ++ t ++ "类型"

/-- `getSelectedItems` from `src/unnamed/part_000` lines 179-191.  The
options object is flattened into the parameters `value`, `valueKey`,
`getKey`, `flag` with the source's defaults.  The type test is the
source's own condition
`!['string','number'].includes(type) || (type === 'object' && !isArray)`,
kept exactly as written.
`buildValueMap` is the `data.forEach` loop that fills the `valueMap`. -/
def buildValueMap (h : Heap) (valueKey getKey : String) (flag : Bool) :
    List JSVal → List (JSVal × JSVal) → Except String (List (JSVal × JSVal))
  | [], m => .ok m
  | it :: rest, m =>
    match getProp h it valueKey with
    | .error e => .error e
    | .ok k =>
      match (if flag then getProp h it getKey else .ok it) with
      | .error e => .error e
      | .ok s => buildValueMap h valueKey getKey flag rest (mapSet m k s)

/-- `getSelectedItems` from `src/unnamed/part_000` lines 179-191.  The
options object is flattened into the parameters `value`, `valueKey`,
`getKey`, `flag` with the source's defaults.  The type test is the
source's own condition
`!['string','number'].includes(type) || (type === 'object' && !isArray)`,
kept exactly as written. -/
def getSelectedItems (h : Heap) (data : JSVal) (value : JSVal)
    (valueKey : String := "value") (getKey : String := "label")
    (flag : Bool := true) : Except String GSIResult :=
  let type := typeofV value
  let isArray := isArrayRef h value
  if ¬(type = "string" ∨ type = "number") ∨ (type = "object" ∧ ¬isArray = true) then
    .error (gsiTypeError type)
  else
    match getElems h data with
    | .error e => .error e
    | .ok items =>
      match buildValueMap h valueKey getKey flag items [] with
      | .error e => .error e
      | .ok valueMap =>
        if ¬isArray = true then .ok (.single (mapGet valueMap value))
        else
          match getElems h value with
          | .error e => .error e
          | .ok vs => .ok (.multi (vs.map (fun v => mapGet valueMap v)))

/-- The example data of the spec: records `{value:'a',label:'A'}` and
`{value:'b',label:'B'}` (cells 0, 1), the data array (cell 2) and the
query array `['a','b']` (cell 3). -/
def gsiExHeap : Heap :=
  [.obj [("value", .str "a"), ("label", .str "A")],
   .obj [("value", .str "b"), ("label", .str "B")],
   .arr [.ref 0, .ref 1],
   .arr [.str "a", .str "b"]]

/-- Claim C1 (code bug): a single string value is looked up fine, but a
sequence value `['a','b']` throws the descriptive type error instead of
returning `['A','B']`: `typeof ['a','b']` is `"object"`, so
`!['string','number'].includes(type)` is already `true` and the guard
throws before the array branch of the function can run.  This
contradicts the function's own documentation, its error message (which
lists `(string | number)[]` among the expected types) and its dedicated,
now unreachable, array branch. -/
theorem getSelectedItems_array_value_throws :
    getSelectedItems gsiExHeap (.ref 2) (.str "a") = .ok (.single (.str "A")) ∧
      getSelectedItems gsiExHeap (.ref 2) (.ref 3) = .error (gsiTypeError "object") := by
  exact ⟨rfl, rfl⟩

/-- Reading a map after writing one key. -/
theorem mapGet_mapSet (m : List (JSVal × JSVal)) (k v k' : JSVal) :
    mapGet (mapSet m k v) k' = if k = k' then v else mapGet m k' := by
  induction m with
  | nil => by_cases h : k = k' <;> simp [mapSet, mapGet, h]
  | cons p m ih =>
    obtain ⟨k0, v0⟩ := p
    simp only [mapSet]
    by_cases h0 : k0 = k
    · rw [if_pos h0]
      subst h0
      by_cases h : k0 = k' <;> simp [mapGet, h]
    · rw [if_neg h0]
      simp only [mapGet, ih]
      by_cases h1 : k0 = k'
      · have hk : ¬k = k' := fun he => h0 (h1.trans he.symm)
        simp [h1, hk]
      · simp [h1]

/-- Folding `Map.set` over a list and then reading key `k` returns the
value of the **last** entry whose key is `k` (later writes overwrite
earlier ones). -/
theorem mapGet_foldl {α : Type} (key val : α → JSVal) :
    ∀ (items : List α) (m0 : List (JSVal × JSVal)) (k : JSVal),
      mapGet (items.foldl (fun m it => mapSet m (key it) (val it)) m0) k =
        (match items.reverse.find? (fun it => key it == k) with
          | some it => val it
          | none => mapGet m0 k) := by
  intro items
  induction items with
  | nil => intro m0 k; simp
  | cons a l ih =>
    intro m0 k
    rw [List.foldl_cons, ih, List.reverse_cons, List.find?_append]
    cases hf : l.reverse.find? (fun it => key it == k) with
    | some it => simp [hf]
    | none =>
      by_cases hk : key a = k
      · have hb : (key a == k) = true := beq_iff_eq.mpr hk
        simp [hf, List.find?, hb, mapGet_mapSet, hk]
      · have hb : (key a == k) = false := beq_eq_false_iff_ne.mpr hk
        simp [hf, List.find?, hb, mapGet_mapSet, hk]

/-- A readable value's property read never throws and returns
`fieldVal`. -/
theorem getProp_readable (h : Heap) (v : JSVal) (k : String)
    (hv : readable h v = true) : getProp h v k = .ok (fieldVal h v k) := by
  cases v with
  | ref r =>
    simp only [readable, decide_eq_true_eq] at hv
    cases ho : h[r]? with
    | none =>
      rw [List.getElem?_eq_none_iff] at ho
      omega
    | some o => cases o <;> simp [getProp, fieldVal, ho]
  | null => simp [readable] at hv
  | undefined => simp [readable] at hv
  | num n => simp [getProp, fieldVal]
  | str s => simp [getProp, fieldVal]
  | bool b => simp [getProp, fieldVal]

/-- On readable items `buildValueMap` never throws and equals the pure
fold of `Map.set` over the items' fields. -/
theorem buildValueMap_readable (h : Heap) (valueKey getKey : String) (flag : Bool) :
    ∀ (items : List JSVal) (m0 : List (JSVal × JSVal)),
      (∀ it ∈ items, readable h it = true) →
      buildValueMap h valueKey getKey flag items m0 =
        .ok (items.foldl (fun m it =>
          mapSet m (fieldVal h it valueKey)
            (if flag then fieldVal h it getKey else it)) m0) := by
  intro items
  induction items with
  | nil => intro m0 _; rfl
  | cons a l ih =>
    intro m0 hread
    have ha := hread a (by simp)
    rw [buildValueMap, getProp_readable h a valueKey ha]
    cases flag with
    | true =>
      rw [getProp_readable h a getKey ha, List.foldl_cons]
      exact ih _ (fun it hit => hread it (List.mem_cons_of_mem a hit))
    | false =>
      rw [List.foldl_cons]
      exact ih _ (fun it hit => hread it (List.mem_cons_of_mem a hit))

/-- Claim C10: for a single string- or number-valued `value`,
`getSelectedItems` returns the mapped result of the **last** record in
`data` whose `valueKey` field equals `value` (`undefined` if none),
because the internal map is built by iterating `data` in order with
later `Map.set` calls overwriting earlier ones. -/
theorem getSelectedItems_last_wins (h : Heap) (rd : Nat) (items : List JSVal)
    (hd : h[rd]? = some (.arr items))
    (hread : ∀ it ∈ items, readable h it = true)
    (value : JSVal) (hv : typeofV value = "string" ∨ typeofV value = "number")
    (valueKey getKey : String) (flag : Bool) :
    getSelectedItems h (.ref rd) value valueKey getKey flag =
      .ok (.single
        (match items.reverse.find? (fun it => fieldVal h it valueKey == value) with
          | some it => if flag then fieldVal h it getKey else it
          | none => .undefined)) := by
  have hnoarr : isArrayRef h value = false := by
    cases value <;> simp [typeofV] at hv <;> simp [isArrayRef]
  have hguard :
      ¬(¬(typeofV value = "string" ∨ typeofV value = "number") ∨
        (typeofV value = "object" ∧ ¬isArrayRef h value = true)) := by
    cases value <;> simp [typeofV] at hv ⊢
  have hge : getElems h (.ref rd) = .ok items := by simp [getElems, hd]
  have hbm := buildValueMap_readable h valueKey getKey flag items [] hread
  have hmg := mapGet_foldl (fun it => fieldVal h it valueKey)
    (fun it => if flag then fieldVal h it getKey else it) items [] value
  rw [getSelectedItems]
  simp only [if_neg hguard, hge, hbm, hnoarr, Bool.false_eq_true, not_false_iff,
    if_true, hmg]
  cases hf : items.reverse.find? (fun it => fieldVal h it valueKey == value) <;>
    simp [hf, mapGet] <;> cases value <;> simp_all [typeofV]

/-- Two records sharing the value `'x'`: lookup data for the witness of
`getSelectedItems_last_wins`. -/
def gsiDupHeap : Heap :=
  [.obj [("value", .str "x"), ("label", .str "first")],
   .obj [("value", .str "x"), ("label", .str "second")],
   .arr [.ref 0, .ref 1]]

/-- Witness for `getSelectedItems_last_wins`: with duplicate keys the
label of the second (last) record is returned. -/
theorem getSelectedItems_last_wins_witness :
    getSelectedItems gsiDupHeap (.ref 2) (.str "x") =
      .ok (.single (.str "second")) := by
  have h := getSelectedItems_last_wins gsiDupHeap 2 [.ref 0, .ref 1] rfl
    (by decide) (.str "x") (by simp [typeofV]) "value" "label" true
  rw [h]
  rfl

/-! ## debounce and throttle

The host timer semantics is modelled explicitly: wrapper invocations form
a timeline of `(time, argument)` events processed in order, and the
executions of the wrapped `fn` are the emitted `(time, argument)` pairs.
`setTimeout(cb, wait)` at time `t` arms a timer for time `t + wait`; an
armed timer that is not cleared before its fire time runs `cb` then;
`clearTimeout` disarms a timer that has not fired yet.  Argument tuples
are abstracted by a type parameter. -/

/-- One call `(t, a)` to the `debounce` wrapper: a pending timer that
would have fired at `ft ≤ t` has already run (emitting `(ft, pa)`),
otherwise `clearTimeout` drops it; either way the call re-arms the timer
for `t + wait` with its own arguments. -/
def debounceStep {α : Type} (wait : ℚ) :
    Option (ℚ × α) → ℚ × α → Option (ℚ × α) × List (ℚ × α)
  | none, (t, a) => (some (t + wait, a), [])
  | some (ft, pa), (t, a) =>
    if ft ≤ t then (some (t + wait, a), [(ft, pa)])
    else (some (t + wait, a), [])

/-- Replay of a call timeline against the closure state of `debounce`
(`src/unnamed/part_000` lines 9-19), collecting the executions of `fn`.
A timer still pending after the last call fires unimpeded. -/
def debounceRun {α : Type} (wait : ℚ) :
    Option (ℚ × α) → List (ℚ × α) → List (ℚ × α)
  | pending, [] =>
    match pending with
    | some p => [p]
    | none => []
  | pending, c :: cs =>
    let s := debounceStep wait pending c
    s.2 ++ debounceRun wait s.1 cs

/-- All executions of `fn` produced by calling a debounced wrapper along
the given timeline (the closure starts with `timer = null`). -/
def debounceRuns {α : Type} (wait : ℚ) (calls : List (ℚ × α)) : List (ℚ × α) :=
  debounceRun wait none calls

/-- Auxiliary induction for claim C9: once a timer is pending for
`c.1 + wait` and every later call comes strictly within `wait` of its
predecessor, each call cancels the pending timer, and only the last
call's timer fires. -/
theorem debounceRun_quiet {α : Type} (wait : ℚ) :
    ∀ (cs : List (ℚ × α)) (c : ℚ × α),
      List.Chain' (fun x y : ℚ × α => y.1 < x.1 + wait) (c :: cs) →
      debounceRun wait (some (c.1 + wait, c.2)) cs =
        [((cs.getLastD c).1 + wait, (cs.getLastD c).2)] := by
  intro cs
  induction cs with
  | nil => intro c _; rfl
  | cons c' cs' ih =>
    intro c hchain
    rw [List.chain'_cons] at hchain
    obtain ⟨hlt, hchain'⟩ := hchain
    obtain ⟨t, a⟩ := c
    obtain ⟨t', a'⟩ := c'
    simp only [debounceRun, debounceStep, if_neg (not_le.mpr hlt)]
    rw [List.nil_append, List.getLastD_cons]
    exact ih (t', a') hchain'

/-- Claim C9: along any nonempty call timeline in which every gap is
shorter than `wait`, the debounced wrapper runs `fn` exactly once, with
the arguments of the last call, `wait` after that last call. -/
theorem debounce_quiet {α : Type} (wait : ℚ) (c : ℚ × α) (cs : List (ℚ × α))
    (hgap : List.Chain' (fun x y : ℚ × α => y.1 < x.1 + wait) (c :: cs)) :
    debounceRuns wait (c :: cs) =
      [((cs.getLastD c).1 + wait, (cs.getLastD c).2)] := by
  obtain ⟨t, a⟩ := c
  simp only [debounceRuns, debounceRun, debounceStep, List.nil_append]
  exact debounceRun_quiet wait cs (t, a) hgap

/-- Witness for `debounce_quiet`: wait 100, three calls at 0, 10, 50;
`fn` runs once at 150 with the last call's argument. -/
theorem debounce_quiet_witness :
    debounceRuns 100 [((0 : ℚ), "a"), (10, "b"), (50, "c")] = [(150, "c")] := by
  have h := debounce_quiet 100 ((0 : ℚ), "a") [(10, "b"), (50, "c")]
    (by simp [List.chain'_cons]; norm_num)
  rw [h]
  norm_num [List.getLastD]

/-- Replay of a call timeline against the closure state of `throttle`
(`src/unnamed/part_000` lines 29-41): `cool = some u` means the cooldown
timer is armed until time `u` (at time `u` the timer callback resets
`timer` to `null`).  A call during the cooldown is dropped; a call with
no armed timer runs `fn` immediately (synchronously, at the call's own
time) and re-arms the cooldown. -/
def throttleRun {α : Type} (wait : ℚ) :
    Option ℚ → List (ℚ × α) → List (ℚ × α)
  | _, [] => []
  | cool, (t, a) :: cs =>
    match cool with
    | some u =>
      if t < u then throttleRun wait (some u) cs
      else (t, a) :: throttleRun wait (some (t + wait)) cs
    | none => (t, a) :: throttleRun wait (some (t + wait)) cs

/-- All executions of `fn` produced by calling a throttled wrapper along
the given timeline (the closure starts with `timer = null`). -/
def throttleRuns {α : Type} (wait : ℚ) (calls : List (ℚ × α)) : List (ℚ × α) :=
  throttleRun wait none calls

/-- Calls strictly inside the cooldown window are dropped without any
effect on the closure state. -/
theorem throttleRun_drop {α : Type} (wait u : ℚ) :
    ∀ (mid rest : List (ℚ × α)), (∀ x ∈ mid, x.1 < u) →
      throttleRun wait (some u) (mid ++ rest) = throttleRun wait (some u) rest := by
  intro mid
  induction mid with
  | nil => intro rest _; rfl
  | cons m mid' ih =>
    intro rest hmid
    obtain ⟨t, a⟩ := m
    have ht : t < u := hmid (t, a) (by simp)
    simp only [List.cons_append, throttleRun, if_pos ht]
    exact ih rest (fun x hx => hmid x (List.mem_cons_of_mem _ hx))

/-- Claim C8: the first call fires `fn` immediately with its own
arguments; every call strictly inside the `wait` cooldown is dropped
(never queued or replayed); the next call at or after the end of the
cooldown fires `fn` immediately again. -/
theorem throttle_window {α : Type} (wait t0 : ℚ) (a0 : α)
    (mid : List (ℚ × α)) (t1 : ℚ) (a1 : α)
    (hmid : ∀ x ∈ mid, x.1 < t0 + wait) (h1 : t0 + wait ≤ t1) :
    throttleRuns wait ((t0, a0) :: (mid ++ [(t1, a1)])) = [(t0, a0), (t1, a1)] := by
  simp only [throttleRuns, throttleRun]
  rw [throttleRun_drop wait (t0 + wait) mid [(t1, a1)] hmid]
  simp only [throttleRun, if_neg (not_lt.mpr h1)]

/-- Witness for `throttle_window`: wait 100, calls at 0, 3, 7 and 110;
`fn` runs exactly twice, at 0 and at 110. -/
theorem throttle_window_witness :
    throttleRuns 100 [((0 : ℚ), "a"), (3, "b"), (7, "c"), (110, "d")] =
      [(0, "a"), (110, "d")] := by
  have h := throttle_window 100 (0 : ℚ) "a" [(3, "b"), (7, "c")] 110 "d"
    (by intro x hx; simp only [List.mem_cons, List.not_mem_nil, or_false] at hx
        rcases hx with h | h <;> subst h <;> norm_num)
    (by norm_num)
  simpa using h

/-! ## deepClone

`deepClone` recurses over the value structure; a cyclic heap makes the
source overflow the stack, so the model takes fuel and returns `none`
when it runs out.  Cloning an array or object allocates a fresh cell
whose contents are the clones of the original contents. -/

/-- The `obj.forEach((item, index) => newArr[index] = deepClone(item))`
loop: clone the elements left to right, threading the heap. -/
def cloneListWith (f : Heap → JSVal → Option (Heap × JSVal)) :
    Heap → List JSVal → Option (Heap × List JSVal)
  | h, [] => some (h, [])
  | h, e :: es =>
    match f h e with
    | none => none
    | some (h1, e') =>
      match cloneListWith f h1 es with
      | none => none
      | some (h2, es') => some (h2, e' :: es')

/-- The `for (let k in obj) newObj[k] = deepClone(obj[k])` loop: clone
the field values in key order, threading the heap. -/
def cloneFieldsWith (f : Heap → JSVal → Option (Heap × JSVal)) :
    Heap → List (String × JSVal) → Option (Heap × List (String × JSVal))
  | h, [] => some (h, [])
  | h, (k, w) :: fs =>
    match f h w with
    | none => none
    | some (h1, w') =>
      match cloneFieldsWith f h1 fs with
      | none => none
      | some (h2, fs') => some (h2, (k, w') :: fs')

/-- `deepClone` from `src/unnamed/part_000` lines 98-112: non-objects
(numbers, strings, booleans, `undefined`) and `null` are returned
unchanged; arrays and plain objects are duplicated recursively into
fresh cells. -/
def deepCloneFuel : Nat → Heap → JSVal → Option (Heap × JSVal)
  | 0, _, _ => none
  | fuel + 1, h, v =>
    match v with
    | .ref r =>
      match h[r]? with
      | some (.arr es) =>
        match cloneListWith (deepCloneFuel fuel) h es with
        | some (h1, es') => some (h1 ++ [.arr es'], .ref h1.length)
        | none => none
      | some (.obj fs) =>
        match cloneFieldsWith (deepCloneFuel fuel) h fs with
        | some (h1, fs') => some (h1 ++ [.obj fs'], .ref h1.length)
        | none => none
      | none => none
    | w => some (h, w)

/-- Reference-free readout of a JS value: the tree of primitives, arrays
and mappings it denotes.  Used to state structural equality of a clone
and its original. -/
inductive PlainVal where
  | num (n : Int)
  | str (s : String)
  | bool (b : Bool)
  | null
  | undefined
  | arr (elems : List PlainVal)
  | obj (fields : List (String × PlainVal))

/-- Readout of a list of values (elementwise). -/
def plainListWith (f : JSVal → Option PlainVal) : List JSVal → Option (List PlainVal)
  | [] => some []
  | e :: es =>
    match f e, plainListWith f es with
    | some p, some ps => some (p :: ps)
    | _, _ => none

/-- Readout of an object's fields (pointwise on values). -/
def plainFieldsWith (f : JSVal → Option PlainVal) :
    List (String × JSVal) → Option (List (String × PlainVal))
  | [] => some []
  | (k, w) :: fs =>
    match f w, plainFieldsWith f fs with
    | some p, some ps => some ((k, p) :: ps)
    | _, _ => none

/-- Deep readout of a value with fuel: follows references, so it fails
(`none`) on cycles or when the fuel does not cover the value's depth. -/
def toPlain : Nat → Heap → JSVal → Option PlainVal
  | 0, _, _ => none
  | fuel + 1, h, v =>
    match v with
    | .ref r =>
      match h[r]? with
      | some (.arr es) => (plainListWith (toPlain fuel h) es).map .arr
      | some (.obj fs) => (plainFieldsWith (toPlain fuel h) fs).map .obj
      | none => none
    | .num n => some (.num n)
    | .str s => some (.str s)
    | .bool b => some (.bool b)
    | .null => some .null
    | .undefined => some .undefined

/-- Every reference in `v` is at least `b` (freshness w.r.t. the old heap
of length `b`). -/
def valGE (b : Nat) : JSVal → Bool
  | .ref r => b ≤ r
  | _ => true

/-- Every reference in `v` is below `b` (no dangling references in a heap
of length `b`). -/
def valLT (b : Nat) : JSVal → Bool
  | .ref r => r < b
  | _ => true

/-- All values stored in a cell satisfy `valGE b`. -/
def objGE (b : Nat) : HObj → Bool
  | .obj fs => fs.all (fun kv => valGE b kv.2)
  | .arr es => es.all (valGE b)

/-- All values stored in a cell satisfy `valLT b`. -/
def objLT (b : Nat) : HObj → Bool
  | .obj fs => fs.all (fun kv => valLT b kv.2)
  | .arr es => es.all (valLT b)

/-- A closed heap: no cell contains a dangling reference. -/
def heapClosed (h : Heap) : Bool := h.all (objLT h.length)

/-- Fresh/closed bounds weaken monotonically. -/
theorem valLT_mono {b b' : Nat} (hbb : b ≤ b') {v : JSVal}
    (hv : valLT b v = true) : valLT b' v = true := by
  cases v <;> (simp [valLT] at hv ⊢; try omega)

/-- Freshness bounds strengthen downwards. -/
theorem valGE_anti {b b' : Nat} (hbb : b' ≤ b) {v : JSVal}
    (hv : valGE b v = true) : valGE b' v = true := by
  cases v <;> (simp [valGE] at hv ⊢; try omega)

/-- `objLT` is monotone in the bound. -/
theorem objLT_mono {b b' : Nat} (hbb : b ≤ b') {o : HObj}
    (ho : objLT b o = true) : objLT b' o = true := by
  cases o <;> simp only [objLT, List.all_eq_true] at ho ⊢ <;>
    exact fun x hx => valLT_mono hbb (ho x hx)

/-- `objGE` is antitone in the bound. -/
theorem objGE_anti {b b' : Nat} (hbb : b' ≤ b) {o : HObj}
    (ho : objGE b o = true) : objGE b' o = true := by
  cases o <;> simp only [objGE, List.all_eq_true] at ho ⊢ <;>
    exact fun x hx => valGE_anti hbb (ho x hx)

/-- Cells of a closed heap contain no dangling references. -/
theorem heapClosed_cell {h : Heap} {r : Nat} {o : HObj}
    (hc : heapClosed h = true) (ho : h[r]? = some o) :
    objLT h.length o = true := by
  simp only [heapClosed, List.all_eq_true] at hc
  exact hc o (List.getElem?_mem ho)

/-- Appending a cell whose contents stay in bounds preserves heap
closure. -/
theorem heapClosed_append {h : Heap} {o : HObj}
    (hc : heapClosed h = true) (ho : objLT (h.length + 1) o = true) :
    heapClosed (h ++ [o]) = true := by
  simp only [heapClosed, List.all_eq_true, List.mem_append, List.mem_singleton,
    List.length_append, List.length_singleton]
  rintro x (hx | rfl)
  · simp only [heapClosed, List.all_eq_true] at hc
    exact objLT_mono (by omega) (hc x hx)
  · exact ho

/-- Reads of existing cells are unchanged by appending. -/
theorem getElem?_mono_append {h : Heap} (ext : Heap) {r : Nat} {o : HObj}
    (ho : h[r]? = some o) : (h ++ ext)[r]? = some o := by
  have hr : r < h.length := by
    rcases List.getElem?_eq_some.mp ho with ⟨hlt, -⟩
    exact hlt
  rw [List.getElem?_append_left hr]
  exact ho

/-- Readout functions that agree (one-sidedly) on the members extend to
lists. -/
theorem plainListWith_congr {f g : JSVal → Option PlainVal} :
    ∀ (es : List JSVal), (∀ v ∈ es, ∀ p, f v = some p → g v = some p) →
      ∀ (ps : List PlainVal),
        plainListWith f es = some ps → plainListWith g es = some ps := by
  intro es
  induction es with
  | nil => intro _ ps hp; exact hp
  | cons e es ih =>
    intro hfg ps hp
    rw [plainListWith] at hp ⊢
    cases hfe : f e with
    | none => rw [hfe] at hp; cases hp
    | some p0 =>
      rw [hfe] at hp
      cases hrest : plainListWith f es with
      | none => rw [hrest] at hp; cases hp
      | some ps0 =>
        rw [hrest] at hp
        rw [hfg e (by simp) p0 hfe,
          ih (fun v hv p hfv => hfg v (by simp [hv]) p hfv) ps0 hrest]
        exact hp

/-- Readout functions that agree (one-sidedly) on the field values extend
to field lists. -/
theorem plainFieldsWith_congr {f g : JSVal → Option PlainVal} :
    ∀ (fs : List (String × JSVal)),
      (∀ kv ∈ fs, ∀ p, f kv.2 = some p → g kv.2 = some p) →
      ∀ (ps : List (String × PlainVal)),
        plainFieldsWith f fs = some ps → plainFieldsWith g fs = some ps := by
  intro fs
  induction fs with
  | nil => intro _ ps hp; exact hp
  | cons kw fs ih =>
    intro hfg ps hp
    obtain ⟨k, w⟩ := kw
    rw [plainFieldsWith] at hp ⊢
    cases hfe : f w with
    | none => rw [hfe] at hp; cases hp
    | some p0 =>
      rw [hfe] at hp
      cases hrest : plainFieldsWith f fs with
      | none => rw [hrest] at hp; cases hp
      | some ps0 =>
        rw [hrest] at hp
        rw [hfg (k, w) (by simp) p0 hfe,
          ih (fun kv hkv p hfv => hfg kv (by simp [hkv]) p hfv) ps0 hrest]
        exact hp

/-- Readout only depends on the cells the source heap actually has: any
heap agreeing on them gives the same readout. -/
theorem toPlain_mono :
    ∀ (n : Nat) (h h2 : Heap),
      (∀ (r : Nat) (o : HObj), h[r]? = some o → h2[r]? = some o) →
      ∀ (v : JSVal) (p : PlainVal), toPlain n h v = some p → toPlain n h2 v = some p := by
  intro n
  induction n with
  | zero => intro h h2 _ v p hp; cases hp
  | succ n ih =>
    intro h h2 hag v p hp
    cases v with
    | ref r =>
      rw [toPlain] at hp ⊢
      cases ho : h[r]? with
      | none => rw [ho] at hp; cases hp
      | some o =>
        rw [ho] at hp
        rw [hag r o ho]
        cases o with
        | arr es =>
          simp only [Option.map_eq_some'] at hp ⊢
          obtain ⟨ps, hps, rfl⟩ := hp
          exact ⟨ps, plainListWith_congr es
            (fun v _ p hv => ih h h2 hag v p hv) ps hps, rfl⟩
        | obj fs =>
          simp only [Option.map_eq_some'] at hp ⊢
          obtain ⟨ps, hps, rfl⟩ := hp
          exact ⟨ps, plainFieldsWith_congr fs
            (fun kv _ p hv => ih h h2 hag kv.2 p hv) ps hps, rfl⟩
    | num m => exact hp
    | str s => exact hp
    | bool b => exact hp
    | null => exact hp
    | undefined => exact hp

/-- A readout obtained in an extended heap restricts to the closed
original heap when the value has no reference into the extension. -/
theorem toPlain_restrict :
    ∀ (n : Nat) (h ext : Heap) (v : JSVal) (p : PlainVal),
      heapClosed h = true → valLT h.length v = true →
      toPlain n (h ++ ext) v = some p → toPlain n h v = some p := by
  intro n
  induction n with
  | zero => intro h ext v p _ _ hp; cases hp
  | succ n ih =>
    intro h ext v p hc hvlt hp
    cases v with
    | ref r =>
      simp only [valLT, decide_eq_true_eq] at hvlt
      cases ho : h[r]? with
      | none =>
        rw [List.getElem?_eq_none_iff] at ho
        omega
      | some o =>
      have ho' : (h ++ ext)[r]? = some o := by
        rw [List.getElem?_append_left hvlt]; exact ho
      rw [toPlain] at hp ⊢
      rw [ho'] at hp
      rw [ho]
      have hcell := heapClosed_cell hc ho
      cases o with
      | arr es =>
        simp only [objLT, List.all_eq_true] at hcell
        simp only [Option.map_eq_some'] at hp ⊢
        obtain ⟨ps, hps, rfl⟩ := hp
        exact ⟨ps, plainListWith_congr es
          (fun x hx q hq => ih h ext x q hc (hcell x hx) hq) ps hps, rfl⟩
      | obj fs =>
        simp only [objLT, List.all_eq_true] at hcell
        simp only [Option.map_eq_some'] at hp ⊢
        obtain ⟨ps, hps, rfl⟩ := hp
        exact ⟨ps, plainFieldsWith_congr fs
          (fun kv hkv q hq => ih h ext kv.2 q hc (hcell kv hkv) hq) ps hps, rfl⟩
    | num m => exact hp
    | str s => exact hp
    | bool b => exact hp
    | null => exact hp
    | undefined => exact hp

/-- Soundness of one `deepClone` call at fuel `n`: the heap only grows,
stays closed, the fresh cells only reference fresh cells, the result
value is fresh (or the original primitive), and the clone's deep readout
equals the original's. -/
def CloneValOK (n : Nat) : Prop :=
  ∀ (h : Heap) (v : JSVal) (h' : Heap) (v' : JSVal),
    heapClosed h = true → valLT h.length v = true →
    deepCloneFuel n h v = some (h', v') →
    (∃ ext, h' = h ++ ext ∧ ∀ o ∈ ext, objGE h.length o = true) ∧
    heapClosed h' = true ∧
    valLT h'.length v' = true ∧
    valGE h.length v' = true ∧
    (∃ p, toPlain n h v = some p ∧ toPlain n h' v' = some p)

/-- Soundness of the element-cloning loop at fuel `n`; additionally the
cloned elements' references come out in strictly increasing order (so
distinct records stay distinct). -/
def CloneListOK (n : Nat) : Prop :=
  ∀ (h : Heap) (es : List JSVal) (h' : Heap) (es' : List JSVal),
    heapClosed h = true → (∀ e ∈ es, valLT h.length e = true) →
    cloneListWith (deepCloneFuel n) h es = some (h', es') →
    (∃ ext, h' = h ++ ext ∧ ∀ o ∈ ext, objGE h.length o = true) ∧
    heapClosed h' = true ∧
    (∀ e' ∈ es', valLT h'.length e' = true ∧ valGE h.length e' = true) ∧
    List.Pairwise (fun a b => ∀ ra rb, a = JSVal.ref ra → b = JSVal.ref rb → ra < rb) es' ∧
    (∃ ps, plainListWith (toPlain n h) es = some ps ∧
      plainListWith (toPlain n h') es' = some ps)

/-- Soundness of the field-cloning loop at fuel `n`. -/
def CloneFieldsOK (n : Nat) : Prop :=
  ∀ (h : Heap) (fs : List (String × JSVal)) (h' : Heap) (fs' : List (String × JSVal)),
    heapClosed h = true → (∀ kv ∈ fs, valLT h.length kv.2 = true) →
    cloneFieldsWith (deepCloneFuel n) h fs = some (h', fs') →
    (∃ ext, h' = h ++ ext ∧ ∀ o ∈ ext, objGE h.length o = true) ∧
    heapClosed h' = true ∧
    (∀ kv ∈ fs', valLT h'.length kv.2 = true ∧ valGE h.length kv.2 = true) ∧
    (∃ ps, plainFieldsWith (toPlain n h) fs = some ps ∧
      plainFieldsWith (toPlain n h') fs' = some ps)

/-- Soundness of `deepClone` at every fuel, for values, element lists and
field lists simultaneously (induction on the fuel). -/
theorem cloneAll_sound : ∀ n : Nat, CloneValOK n ∧ CloneListOK n ∧ CloneFieldsOK n := by
  intro n
  induction n with
  | zero =>
    refine ⟨?_, ?_, ?_⟩
    · intro h v h' v' _ _ hcl
      simp [deepCloneFuel] at hcl
    · intro h es h' es' hc _ hcl
      cases es with
      | nil =>
        simp only [cloneListWith, Option.some.injEq, Prod.mk.injEq] at hcl
        obtain ⟨rfl, rfl⟩ := hcl
        exact ⟨⟨[], by simp, by simp⟩, hc, by simp, by simp, ⟨[], rfl, rfl⟩⟩
      | cons e es => simp [cloneListWith, deepCloneFuel] at hcl
    · intro h fs h' fs' hc _ hcl
      cases fs with
      | nil =>
        simp only [cloneFieldsWith, Option.some.injEq, Prod.mk.injEq] at hcl
        obtain ⟨rfl, rfl⟩ := hcl
        exact ⟨⟨[], by simp, by simp⟩, hc, by simp, ⟨[], rfl, rfl⟩⟩
      | cons kv fs =>
        obtain ⟨k, w⟩ := kv
        simp [cloneFieldsWith, deepCloneFuel] at hcl
  | succ n ih =>
    obtain ⟨Pn, Ln, Fn⟩ := ih
    have Psucc : CloneValOK (n + 1) := by
      intro h v h' v' hc hvlt hcl
      cases v with
      | ref r =>
        rw [deepCloneFuel] at hcl
        cases ho : h[r]? with
        | none => rw [ho] at hcl; cases hcl
        | some o =>
          rw [ho] at hcl
          have hcell := heapClosed_cell hc ho
          cases o with
          | arr es =>
            simp only [objLT, List.all_eq_true] at hcell
            have hcl2 : (match cloneListWith (deepCloneFuel n) h es with
                | some (h1, es') => some (h1 ++ [HObj.arr es'], JSVal.ref h1.length)
                | none => none) = some (h', v') := hcl
            cases hcls : cloneListWith (deepCloneFuel n) h es with
            | none => rw [hcls] at hcl2; exact Option.noConfusion hcl2
            | some res =>
              obtain ⟨h1, es'⟩ := res
              rw [hcls] at hcl2
              have hcl3 : (some (h1 ++ [HObj.arr es'], JSVal.ref h1.length) :
                  Option (Heap × JSVal)) = some (h', v') := hcl2
              simp only [Option.some.injEq, Prod.mk.injEq] at hcl3
              obtain ⟨rfl, rfl⟩ := hcl3
              obtain ⟨⟨ext1, rfl, hext1⟩, hc1, hmem1, hpw1, ⟨ps, hps, hps'⟩⟩ :=
                Ln h es _ es' hc hcell hcls
              refine ⟨⟨ext1 ++ [.arr es'], by simp, ?_⟩, ?_, ?_, ?_, ?_⟩
              · intro o hoext
                rw [List.mem_append, List.mem_singleton] at hoext
                rcases hoext with hoe | rfl
                · exact hext1 o hoe
                · simp only [objGE, List.all_eq_true]
                  exact fun x hx => (hmem1 x hx).2
              · refine heapClosed_append hc1 ?_
                simp only [objLT, List.all_eq_true]
                exact fun x hx => valLT_mono (by omega) ((hmem1 x hx).1)
              · simp only [valLT, List.length_append, List.length_singleton,
                  decide_eq_true_eq]
                omega
              · simp only [valGE, List.length_append, decide_eq_true_eq]
                omega
              · refine ⟨.arr ps, ?_, ?_⟩
                · rw [toPlain, ho]
                  show Option.map PlainVal.arr (plainListWith (toPlain n h) es) =
                    some (PlainVal.arr ps)
                  rw [hps]
                  rfl
                · rw [toPlain, List.getElem?_concat_length]
                  have hagree : ∀ (r0 : Nat) (o0 : HObj),
                      (h ++ ext1)[r0]? = some o0 →
                      ((h ++ ext1) ++ [HObj.arr es'])[r0]? = some o0 :=
                    fun r0 o0 hh => getElem?_mono_append [HObj.arr es'] hh
                  show Option.map PlainVal.arr
                      (plainListWith (toPlain n (h ++ ext1 ++ [HObj.arr es'])) es') =
                    some (PlainVal.arr ps)
                  rw [plainListWith_congr es'
                    (fun x _ q hq => toPlain_mono n (h ++ ext1) _ hagree x q hq) ps hps']
                  rfl
          | obj fs =>
            simp only [objLT, List.all_eq_true] at hcell
            have hcl2 : (match cloneFieldsWith (deepCloneFuel n) h fs with
                | some (h1, fs') => some (h1 ++ [HObj.obj fs'], JSVal.ref h1.length)
                | none => none) = some (h', v') := hcl
            cases hcls : cloneFieldsWith (deepCloneFuel n) h fs with
            | none => rw [hcls] at hcl2; exact Option.noConfusion hcl2
            | some res =>
              obtain ⟨h1, fs'⟩ := res
              rw [hcls] at hcl2
              have hcl3 : (some (h1 ++ [HObj.obj fs'], JSVal.ref h1.length) :
                  Option (Heap × JSVal)) = some (h', v') := hcl2
              simp only [Option.some.injEq, Prod.mk.injEq] at hcl3
              obtain ⟨rfl, rfl⟩ := hcl3
              obtain ⟨⟨ext1, rfl, hext1⟩, hc1, hmem1, ⟨ps, hps, hps'⟩⟩ :=
                Fn h fs _ fs' hc hcell hcls
              refine ⟨⟨ext1 ++ [.obj fs'], by simp, ?_⟩, ?_, ?_, ?_, ?_⟩
              · intro o hoext
                rw [List.mem_append, List.mem_singleton] at hoext
                rcases hoext with hoe | rfl
                · exact hext1 o hoe
                · simp only [objGE, List.all_eq_true]
                  exact fun x hx => (hmem1 x hx).2
              · refine heapClosed_append hc1 ?_
                simp only [objLT, List.all_eq_true]
                exact fun x hx => valLT_mono (by omega) ((hmem1 x hx).1)
              · simp only [valLT, List.length_append, List.length_singleton,
                  decide_eq_true_eq]
                omega
              · simp only [valGE, List.length_append, decide_eq_true_eq]
                omega
              · refine ⟨.obj ps, ?_, ?_⟩
                · rw [toPlain, ho]
                  show Option.map PlainVal.obj (plainFieldsWith (toPlain n h) fs) =
                    some (PlainVal.obj ps)
                  rw [hps]
                  rfl
                · rw [toPlain, List.getElem?_concat_length]
                  have hagree : ∀ (r0 : Nat) (o0 : HObj),
                      (h ++ ext1)[r0]? = some o0 →
                      ((h ++ ext1) ++ [HObj.obj fs'])[r0]? = some o0 :=
                    fun r0 o0 hh => getElem?_mono_append [HObj.obj fs'] hh
                  show Option.map PlainVal.obj
                      (plainFieldsWith (toPlain n (h ++ ext1 ++ [HObj.obj fs'])) fs') =
                    some (PlainVal.obj ps)
                  rw [plainFieldsWith_congr fs'
                    (fun kv _ q hq => toPlain_mono n (h ++ ext1) _ hagree kv.2 q hq) ps hps']
                  rfl
      | num m =>
        simp only [deepCloneFuel, Option.some.injEq, Prod.mk.injEq] at hcl
        obtain ⟨rfl, rfl⟩ := hcl
        exact ⟨⟨[], by simp, by simp⟩, hc, rfl, rfl, ⟨_, rfl, rfl⟩⟩
      | str s =>
        simp only [deepCloneFuel, Option.some.injEq, Prod.mk.injEq] at hcl
        obtain ⟨rfl, rfl⟩ := hcl
        exact ⟨⟨[], by simp, by simp⟩, hc, rfl, rfl, ⟨_, rfl, rfl⟩⟩
      | bool b =>
        simp only [deepCloneFuel, Option.some.injEq, Prod.mk.injEq] at hcl
        obtain ⟨rfl, rfl⟩ := hcl
        exact ⟨⟨[], by simp, by simp⟩, hc, rfl, rfl, ⟨_, rfl, rfl⟩⟩
      | null =>
        simp only [deepCloneFuel, Option.some.injEq, Prod.mk.injEq] at hcl
        obtain ⟨rfl, rfl⟩ := hcl
        exact ⟨⟨[], by simp, by simp⟩, hc, rfl, rfl, ⟨_, rfl, rfl⟩⟩
      | undefined =>
        simp only [deepCloneFuel, Option.some.injEq, Prod.mk.injEq] at hcl
        obtain ⟨rfl, rfl⟩ := hcl
        exact ⟨⟨[], by simp, by simp⟩, hc, rfl, rfl, ⟨_, rfl, rfl⟩⟩
    have Lsucc : CloneListOK (n + 1) := by
      intro h es
      induction es generalizing h with
      | nil =>
        intro h' es' hc _ hcl
        simp only [cloneListWith, Option.some.injEq, Prod.mk.injEq] at hcl
        obtain ⟨rfl, rfl⟩ := hcl
        exact ⟨⟨[], by simp, by simp⟩, hc, by simp, by simp, ⟨[], rfl, rfl⟩⟩
      | cons e es ihes =>
        intro h' es' hc hlt hcl
        rw [cloneListWith] at hcl
        cases hce : deepCloneFuel (n + 1) h e with
        | none => rw [hce] at hcl; exact Option.noConfusion hcl
        | some res1 =>
          obtain ⟨hm, e'⟩ := res1
          rw [hce] at hcl
          have hcl2 : (match cloneListWith (deepCloneFuel (n + 1)) hm es with
              | none => none
              | some (h2, es2) => some (h2, e' :: es2)) = some (h', es') := hcl
          cases hcr : cloneListWith (deepCloneFuel (n + 1)) hm es with
          | none => rw [hcr] at hcl2; exact Option.noConfusion hcl2
          | some res2 =>
            obtain ⟨h2, es2⟩ := res2
            rw [hcr] at hcl2
            have hcl3 : (some (h2, e' :: es2) : Option (Heap × List JSVal)) =
                some (h', es') := hcl2
            simp only [Option.some.injEq, Prod.mk.injEq] at hcl3
            obtain ⟨rfl, rfl⟩ := hcl3
            obtain ⟨⟨ext1, rfl, hext1⟩, hcm, hLTe, hGEe, ⟨p, hpe, hpe'⟩⟩ :=
              Psucc h e hm e' hc (hlt e (by simp)) hce
            have hlt2 : ∀ x ∈ es, valLT (h ++ ext1).length x = true :=
              fun x hx => valLT_mono (by simp) (hlt x (by simp [hx]))
            obtain ⟨⟨ext2, rfl, hext2⟩, hc2, hmem2, hpw2, ⟨ps2, hps2, hps2'⟩⟩ :=
              ihes (h ++ ext1) h2 es2 hcm hlt2 hcr
            refine ⟨⟨ext1 ++ ext2, by simp, ?_⟩, hc2, ?_, ?_, ?_⟩
            · intro o hoext
              rw [List.mem_append] at hoext
              rcases hoext with hoe | hoe
              · exact hext1 o hoe
              · exact objGE_anti (by simp) (hext2 o hoe)
            · intro x hx
              rw [List.mem_cons] at hx
              rcases hx with rfl | hx
              · exact ⟨valLT_mono (by simp) hLTe, hGEe⟩
              · exact ⟨(hmem2 x hx).1, valGE_anti (by simp) ((hmem2 x hx).2)⟩
            · rw [List.pairwise_cons]
              refine ⟨?_, hpw2⟩
              intro b hb ra rb hra hrb
              subst hra
              have h1 : ra < (h ++ ext1).length := by
                have := hLTe
                simp only [valLT, decide_eq_true_eq] at this
                exact this
              have h2b := (hmem2 b hb).2
              rw [hrb] at h2b
              simp only [valGE, decide_eq_true_eq] at h2b
              omega
            · refine ⟨p :: ps2, ?_, ?_⟩
              · rw [plainListWith, hpe]
                rw [plainListWith_congr es
                  (fun x hx q hq => toPlain_restrict (n + 1) h ext1 x q hc
                    (hlt x (by simp [hx])) hq) ps2 hps2]
              · rw [plainListWith]
                have hagree : ∀ (r0 : Nat) (o0 : HObj),
                    (h ++ ext1)[r0]? = some o0 →
                    ((h ++ ext1) ++ ext2)[r0]? = some o0 :=
                  fun r0 o0 hh => getElem?_mono_append ext2 hh
                rw [toPlain_mono (n + 1) (h ++ ext1) _ hagree e' p hpe', hps2']
    have Fsucc : CloneFieldsOK (n + 1) := by
      intro h fs
      induction fs generalizing h with
      | nil =>
        intro h' fs' hc _ hcl
        simp only [cloneFieldsWith, Option.some.injEq, Prod.mk.injEq] at hcl
        obtain ⟨rfl, rfl⟩ := hcl
        exact ⟨⟨[], by simp, by simp⟩, hc, by simp, ⟨[], rfl, rfl⟩⟩
      | cons kw fs ihfs =>
        intro h' fs' hc hlt hcl
        obtain ⟨k, w⟩ := kw
        rw [cloneFieldsWith] at hcl
        cases hce : deepCloneFuel (n + 1) h w with
        | none => rw [hce] at hcl; exact Option.noConfusion hcl
        | some res1 =>
          obtain ⟨hm, w'⟩ := res1
          rw [hce] at hcl
          have hcl2 : (match cloneFieldsWith (deepCloneFuel (n + 1)) hm fs with
              | none => none
              | some (h2, fs2) => some (h2, (k, w') :: fs2)) = some (h', fs') := hcl
          cases hcr : cloneFieldsWith (deepCloneFuel (n + 1)) hm fs with
          | none => rw [hcr] at hcl2; exact Option.noConfusion hcl2
          | some res2 =>
            obtain ⟨h2, fs2⟩ := res2
            rw [hcr] at hcl2
            have hcl3 : (some (h2, (k, w') :: fs2) : Option (Heap × List (String × JSVal))) =
                some (h', fs') := hcl2
            simp only [Option.some.injEq, Prod.mk.injEq] at hcl3
            obtain ⟨rfl, rfl⟩ := hcl3
            obtain ⟨⟨ext1, rfl, hext1⟩, hcm, hLTw, hGEw, ⟨p, hpw, hpw'⟩⟩ :=
              Psucc h w hm w' hc (hlt (k, w) (by simp)) hce
            have hlt2 : ∀ kv ∈ fs, valLT (h ++ ext1).length kv.2 = true :=
              fun kv hkv => valLT_mono (by simp) (hlt kv (by simp [hkv]))
            obtain ⟨⟨ext2, rfl, hext2⟩, hc2, hmem2, ⟨ps2, hps2, hps2'⟩⟩ :=
              ihfs (h ++ ext1) h2 fs2 hcm hlt2 hcr
            refine ⟨⟨ext1 ++ ext2, by simp, ?_⟩, hc2, ?_, ?_⟩
            · intro o hoext
              rw [List.mem_append] at hoext
              rcases hoext with hoe | hoe
              · exact hext1 o hoe
              · exact objGE_anti (by simp) (hext2 o hoe)
            · intro kv hkv
              rw [List.mem_cons] at hkv
              rcases hkv with rfl | hkv
              · exact ⟨valLT_mono (by simp) hLTw, hGEw⟩
              · exact ⟨(hmem2 kv hkv).1, valGE_anti (by simp) ((hmem2 kv hkv).2)⟩
            · refine ⟨(k, p) :: ps2, ?_, ?_⟩
              · rw [plainFieldsWith, hpw]
                rw [plainFieldsWith_congr fs
                  (fun kv hkv q hq => toPlain_restrict (n + 1) h ext1 kv.2 q hc
                    (hlt kv (by simp [hkv])) hq) ps2 hps2]
              · rw [plainFieldsWith]
                have hagree : ∀ (r0 : Nat) (o0 : HObj),
                    (h ++ ext1)[r0]? = some o0 →
                    ((h ++ ext1) ++ ext2)[r0]? = some o0 :=
                  fun r0 o0 hh => getElem?_mono_append ext2 hh
                rw [toPlain_mono (n + 1) (h ++ ext1) _ hagree w' p hpw', hps2']
    exact ⟨Psucc, Lsucc, Fsucc⟩

/-- Claim C7: on a closed heap, a successful `deepClone` (i) produces a
value whose deep readout (structural content) equals the original's,
(ii) only appends to the heap, with every fresh cell referencing only
fresh cells (so clone and original share no array or mapping), (iii)
returns a reference into the fresh region (or the untouched primitive),
(iv) returns non-object values, including `null`, unchanged, and (v)
overwriting any cell of the fresh region — i.e. mutating any container
reachable from the clone — leaves the original value's readout
untouched. -/
theorem deepClone_spec (n : Nat) (h : Heap) (v : JSVal) (h' : Heap) (v' : JSVal)
    (hc : heapClosed h = true) (hv : valLT h.length v = true)
    (hcl : deepCloneFuel n h v = some (h', v')) :
    (∃ p, toPlain n h v = some p ∧ toPlain n h' v' = some p) ∧
    (∃ ext, h' = h ++ ext ∧ ∀ o ∈ ext, objGE h.length o = true) ∧
    valGE h.length v' = true ∧
    ((∀ r, v ≠ .ref r) → h' = h ∧ v' = v) ∧
    (∀ (r0 : Nat) (o : HObj), h.length ≤ r0 →
      toPlain n (h'.set r0 o) v = toPlain n h v) := by
  obtain ⟨⟨ext, rfl, hext⟩, hc', hvlt', hvge', ⟨p, hp, hp'⟩⟩ :=
    (cloneAll_sound n).1 h v _ v' hc hv hcl
  refine ⟨⟨p, hp, hp'⟩, ⟨ext, rfl, hext⟩, hvge', ?_, ?_⟩
  · intro hnr
    cases n with
    | zero => simp [deepCloneFuel] at hcl
    | succ n0 =>
      have hcl2 : (some (h, v) : Option (Heap × JSVal)) = some (h ++ ext, v') := by
        cases v with
        | ref r => exact absurd rfl (hnr r)
        | num m => exact hcl
        | str s => exact hcl
        | bool b => exact hcl
        | null => exact hcl
        | undefined => exact hcl
      simp only [Option.some.injEq, Prod.mk.injEq] at hcl2
      exact ⟨hcl2.1.symm, hcl2.2.symm⟩
  · intro r0 o hr0
    have hagree : ∀ (r : Nat) (o0 : HObj),
        h[r]? = some o0 → ((h ++ ext).set r0 o)[r]? = some o0 := by
      intro r o0 hro
      have hr : r < h.length := by
        rcases List.getElem?_eq_some.mp hro with ⟨hlt, -⟩
        exact hlt
      rw [List.getElem?_set_ne (by omega)]
      exact getElem?_mono_append ext hro
    rw [hp, toPlain_mono n h _ hagree v p hp]

/-- Example input for the `deepClone` claims: a record cell referenced
from an array cell. -/
def dcExH : Heap := [.obj [("a", .num 1)], .arr [.ref 0, .num 2]]

/-- The heap after cloning `.ref 1` (the array) of `dcExH`: clones of the
record and the array are appended as cells 2 and 3. -/
def dcExHC : Heap :=
  [.obj [("a", .num 1)], .arr [.ref 0, .num 2],
   .obj [("a", .num 1)], .arr [.ref 2, .num 2]]

/-- Witness for `deepClone_spec` at the concrete heap `dcExH`. -/
theorem deepClone_spec_witness :
    (∃ p, toPlain 5 dcExH (.ref 1) = some p ∧ toPlain 5 dcExHC (.ref 3) = some p) ∧
    (∃ ext, dcExHC = dcExH ++ ext ∧ ∀ o ∈ ext, objGE dcExH.length o = true) ∧
    valGE dcExH.length (.ref 3) = true ∧
    ((∀ r, (JSVal.ref 1) ≠ .ref r) → dcExHC = dcExH ∧ JSVal.ref 3 = .ref 1) ∧
    (∀ (r0 : Nat) (o : HObj), dcExH.length ≤ r0 →
      toPlain 5 (dcExHC.set r0 o) (.ref 1) = toPlain 5 dcExH (.ref 1)) :=
  deepClone_spec 5 dcExH (.ref 1) dcExHC (.ref 3) (by decide) (by decide) (by decide)

/-! ## arrayToTree -/

/-- Phase 1 of `arrayToTree`:
`data.forEach(item => idMap.set(item[id], item))`. -/
def buildIdMap (h : Heap) (id : String) :
    List JSVal → List (JSVal × JSVal) → Except String (List (JSVal × JSVal))
  | [], m => .ok m
  | it :: rest, m =>
    match getProp h it id with
    | .error e => .error e
    | .ok k => buildIdMap h id rest (mapSet m k it)

/-- The parent-attachment part of one phase-2 step of `arrayToTree`:
`if (!parent[children]) parent[children] = []` (which allocates a fresh
empty array) followed by `parent[children].push(item)`, returning the
updated heap. -/
def attachToParent (children : String) (h : Heap) (parent it : JSVal) :
    Except String Heap :=
  (getProp h parent children).bind (fun cv =>
    (if truthy cv = false then
        setProp (h ++ [.arr []]) parent children (.ref h.length)
      else .ok h).bind (fun h2 =>
      (getProp h2 parent children).bind (fun cv2 => pushElem h2 cv2 it)))

/-- One step of phase 2 of `arrayToTree` (the second `forEach`): a record
with a falsy parent-key value is pushed onto the root list; otherwise the
parent is looked up in the `idMap` and the record is attached to its
children array. -/
def attachStep (pid children : String) (idMap : List (JSVal × JSVal))
    (st : Heap × List JSVal) (it : JSVal) : Except String (Heap × List JSVal) :=
  (getProp st.1 it pid).bind (fun pv =>
    if truthy pv = false then .ok (st.1, st.2 ++ [it])
    else
      (attachToParent children st.1 (mapGet idMap pv) it).bind
        (fun h3 => .ok (h3, st.2)))

/-- Phase 2 of `arrayToTree`: fold `attachStep` over the records. -/
def attachAll (pid children : String) (idMap : List (JSVal × JSVal)) :
    List JSVal → Heap × List JSVal → Except String (Heap × List JSVal)
  | [], st => .ok st
  | it :: rest, st =>
    match attachStep pid children idMap st it with
    | .error e => .error e
    | .ok st' => attachAll pid children idMap rest st'

/-- `arrayToTree` from `src/unnamed/part_000` lines 124-136: deep-clone
the input, index the clones by their id field, then attach every record
to its parent (or to the root list when its parent-key value is falsy).
`none` models stack exhaustion inside `deepClone`; a thrown `TypeError`
is `some (.error _)`. -/
def arrayToTree (fuel : Nat) (h : Heap) (arr : JSVal)
    (id : String := "id") (pid : String := "pid")
    (children : String := "children") :
    Option (Except String (Heap × JSVal)) :=
  match deepCloneFuel fuel h arr with
  | none => none
  | some (h1, data) =>
    match getElems h1 data with
    | .error e => some (.error e)
    | .ok items =>
      match buildIdMap h1 id items [] with
      | .error e => some (.error e)
      | .ok idMap =>
        match attachAll pid children idMap items (h1, []) with
        | .error e => some (.error e)
        | .ok (h2, tree) =>
          some (.ok ((allocCell h2 (.arr tree)).1, (allocCell h2 (.arr tree)).2))

/-- Whether a run of `arrayToTree` returned normally. -/
def isOkResult : Option (Except String (Heap × JSVal)) → Bool
  | some (.ok _) => true
  | _ => false

/-- Reading a field just written. -/
theorem lookupField_setField_self (fs : List (String × JSVal)) (k : String) (w : JSVal) :
    lookupField (setField fs k w) k = some w := by
  induction fs with
  | nil => simp [setField, lookupField]
  | cons kv fs ih =>
    obtain ⟨k0, w0⟩ := kv
    by_cases h0 : k0 = k
    · simp [setField, lookupField, h0]
    · simp [setField, lookupField, h0, ih]

/-- Writing one field leaves the other fields alone. -/
theorem lookupField_setField_ne (fs : List (String × JSVal)) (k : String) (w : JSVal)
    (key : String) (hk : key ≠ k) :
    lookupField (setField fs k w) key = lookupField fs key := by
  induction fs with
  | nil =>
    rw [setField]
    simp [lookupField, Ne.symm hk]
  | cons kv fs ih =>
    obtain ⟨k0, w0⟩ := kv
    rw [setField]
    by_cases h0 : k0 = k
    · subst h0
      rw [if_pos rfl]
      have hks : ¬k0 = key := fun h => hk h.symm
      simp [lookupField, hks]
    · rw [if_neg h0]
      by_cases h1 : k0 = key
      · subst h1
        simp [lookupField]
      · simp [lookupField, h1, ih]

/-- `setField` keeps every field value above the bound `b` when the
written value is. -/
theorem allGE_setField {b : Nat} :
    ∀ (fs : List (String × JSVal)) (k : String) (w : JSVal),
      (∀ kv ∈ fs, valGE b kv.2 = true) → valGE b w = true →
      ∀ kv ∈ setField fs k w, valGE b kv.2 = true := by
  intro fs
  induction fs with
  | nil =>
    intro k w _ hw kv hkv
    rw [setField, List.mem_singleton] at hkv
    subst hkv
    exact hw
  | cons p fs ih =>
    intro k w hfs hw kv hkv
    obtain ⟨k0, w0⟩ := p
    rw [setField] at hkv
    by_cases h0 : k0 = k
    · rw [if_pos h0] at hkv
      rw [List.mem_cons] at hkv
      rcases hkv with rfl | hkv
      · exact hw
      · exact hfs kv (by simp [hkv])
    · rw [if_neg h0] at hkv
      rw [List.mem_cons] at hkv
      rcases hkv with rfl | hkv
      · exact hfs (k0, w0) (by simp)
      · exact ih k w (fun y hy => hfs y (by simp [hy])) hw kv hkv

/-- `setField` preserves the freshness bound of an object's fields when
the written value is fresh. -/
theorem objGE_setField {b : Nat} {fs : List (String × JSVal)} {k : String} {w : JSVal}
    (hfs : objGE b (.obj fs) = true) (hw : valGE b w = true) :
    objGE b (.obj (setField fs k w)) = true := by
  simp only [objGE, List.all_eq_true] at hfs ⊢
  exact allGE_setField fs k w hfs hw

/-- Property read through a known object cell. -/
theorem getProp_obj {h : Heap} {r : Nat} {fs : List (String × JSVal)} (k : String)
    (hcell : h[r]? = some (.obj fs)) :
    getProp h (.ref r) k = .ok ((lookupField fs k).getD .undefined) := by
  rw [getProp, hcell]

/-- Property read through a known array cell. -/
theorem getProp_arrCell {h : Heap} {r : Nat} {es : List JSVal} (k : String)
    (hcell : h[r]? = some (.arr es)) :
    getProp h (.ref r) k = .ok .undefined := by
  rw [getProp, hcell]

/-- Property read through a dangling reference. -/
theorem getProp_dangling {h : Heap} {r : Nat} (k : String) (hcell : h[r]? = none) :
    getProp h (.ref r) k = .error "invalid reference" := by
  rw [getProp, hcell]

/-- Property write through a known object cell. -/
theorem setProp_obj {h : Heap} {r : Nat} {fs : List (String × JSVal)}
    (k : String) (w : JSVal) (hcell : h[r]? = some (.obj fs)) :
    setProp h (.ref r) k w = .ok (h.set r (.obj (setField fs k w))) := by
  rw [setProp, hcell]

/-- Property write through a known array cell (not supported in the
model). -/
theorem setProp_arrCell {h : Heap} {r : Nat} {es : List JSVal}
    (k : String) (w : JSVal) (hcell : h[r]? = some (.arr es)) :
    setProp h (.ref r) k w = .error "unsupported property assignment on array" := by
  rw [setProp, hcell]

/-- Push onto a known array cell. -/
theorem pushElem_arrCell {h : Heap} {r : Nat} {es : List JSVal} (x : JSVal)
    (hcell : h[r]? = some (.arr es)) :
    pushElem h (.ref r) x = .ok (h.set r (.arr (es ++ [x]))) := by
  rw [pushElem, hcell]

/-- Monadic bind of a successful `Except` computation. -/
theorem Except.bind_ok_left {e a b : Type} (x : a) (f : a → Except e b) :
    (Except.ok x : Except e a).bind f = f x := rfl

/-- Exhaustive characterization of a successful `attachToParent`: either
the parent's children field was falsy and a fresh one-element array was
created, or the record was pushed onto the parent's existing children
array.  In particular the parent is always an object reference. -/
theorem attachToParent_cases (children : String) (h : Heap) (parent it : JSVal)
    (h3 : Heap) (hat : attachToParent children h parent it = .ok h3) :
    (∃ rp fs, parent = .ref rp ∧ h[rp]? = some (.obj fs) ∧
      truthy ((lookupField fs children).getD JSVal.undefined) = false ∧
      h3 = ((h ++ [HObj.arr []]).set rp
        (HObj.obj (setField fs children (JSVal.ref h.length)))).set h.length
        (HObj.arr [it])) ∨
    (∃ rp fs rc es0, parent = .ref rp ∧ h[rp]? = some (.obj fs) ∧
      lookupField fs children = some (.ref rc) ∧ h[rc]? = some (.arr es0) ∧
      h3 = h.set rc (HObj.arr (es0 ++ [it]))) := by
  rw [attachToParent] at hat
  cases parent with
  | null => exact Except.noConfusion hat
  | undefined => exact Except.noConfusion hat
  | num m => exact Except.noConfusion hat
  | str s => exact Except.noConfusion hat
  | bool b => exact Except.noConfusion hat
  | ref rp =>
    cases hcell : h[rp]? with
    | none =>
      rw [getProp_dangling children hcell] at hat
      exact Except.noConfusion hat
    | some o =>
      cases o with
      | arr es =>
        rw [getProp_arrCell children hcell] at hat
        simp only [Except.bind_ok_left] at hat
        rw [if_pos (show truthy JSVal.undefined = false from rfl),
          setProp_arrCell children (JSVal.ref h.length)
            (getElem?_mono_append [HObj.arr []] hcell)] at hat
        exact Except.noConfusion hat
      | obj fs =>
        rw [getProp_obj children hcell] at hat
        simp only [Except.bind_ok_left] at hat
        have hrp : rp < h.length := by
          rcases List.getElem?_eq_some.mp hcell with ⟨hlt, -⟩
          exact hlt
        by_cases htr : truthy ((lookupField fs children).getD .undefined) = false
        · left
          rw [if_pos htr, setProp_obj children (JSVal.ref h.length)
            (getElem?_mono_append [HObj.arr []] hcell)] at hat
          simp only [Except.bind_ok_left] at hat
          have hcell2 : (((h ++ [HObj.arr []]).set rp
              (HObj.obj (setField fs children (JSVal.ref h.length))))[rp]?) =
              some (HObj.obj (setField fs children (JSVal.ref h.length))) :=
            List.getElem?_set_self
              (by simp only [List.length_append, List.length_singleton]; omega)
          rw [getProp_obj children hcell2, lookupField_setField_self] at hat
          simp only [Except.bind_ok_left, Option.getD_some] at hat
          have hlen : (((h ++ [HObj.arr []]).set rp
              (HObj.obj (setField fs children (JSVal.ref h.length))))[h.length]?) =
              some (HObj.arr ([] : List JSVal)) := by
            rw [List.getElem?_set_ne (by omega), List.getElem?_concat_length]
          rw [pushElem_arrCell it hlen] at hat
          refine ⟨rp, fs, rfl, hcell, htr, ?_⟩
          rw [← Except.ok.inj hat]
          rfl
        · right
          rw [if_neg htr] at hat
          simp only [Except.bind_ok_left] at hat
          rw [getProp_obj children hcell] at hat
          simp only [Except.bind_ok_left] at hat
          cases hlf : lookupField fs children with
          | none =>
            rw [hlf] at htr
            simp [truthy] at htr
          | some cv =>
            rw [hlf] at hat htr
            simp only [Option.getD_some] at hat htr
            cases cv with
            | null => simp [truthy] at htr
            | undefined => simp [truthy] at htr
            | num m => exact Except.noConfusion hat
            | str s2 => exact Except.noConfusion hat
            | bool b => exact Except.noConfusion hat
            | ref rc =>
              cases hc2 : h[rc]? with
              | none =>
                rw [pushElem, hc2] at hat
                exact Except.noConfusion hat
              | some o2 =>
                cases o2 with
                | obj fs2 =>
                  rw [pushElem, hc2] at hat
                  exact Except.noConfusion hat
                | arr es0 =>
                  rw [pushElem_arrCell it hc2] at hat
                  exact ⟨rp, fs, rc, es0, rfl, hcell, hlf, hc2,
                    (Except.ok.inj hat).symm⟩

/-- Exhaustive characterization of a successful `attachStep`. -/
theorem attachStep_cases (pid children : String) (idMap : List (JSVal × JSVal))
    (st : Heap × List JSVal) (it : JSVal) (st' : Heap × List JSVal)
    (hstep : attachStep pid children idMap st it = .ok st') :
    (∃ pv, getProp st.1 it pid = .ok pv ∧ truthy pv = false ∧
      st' = (st.1, st.2 ++ [it])) ∨
    (∃ pv h3, getProp st.1 it pid = .ok pv ∧ truthy pv = true ∧
      attachToParent children st.1 (mapGet idMap pv) it = .ok h3 ∧
      st' = (h3, st.2)) := by
  rw [attachStep] at hstep
  cases hpv : getProp st.1 it pid with
  | error e =>
    rw [hpv] at hstep
    exact Except.noConfusion hstep
  | ok pv =>
    rw [hpv] at hstep
    simp only [Except.bind_ok_left] at hstep
    by_cases htr : truthy pv = false
    · left
      rw [if_pos htr] at hstep
      exact ⟨pv, rfl, htr, (Except.ok.inj hstep).symm⟩
    · right
      rw [if_neg htr] at hstep
      cases hat : attachToParent children st.1 (mapGet idMap pv) it with
      | error e =>
        rw [hat] at hstep
        exact Except.noConfusion hstep
      | ok h3 =>
        rw [hat] at hstep
        simp only [Except.bind_ok_left] at hstep
        exact ⟨pv, h3, rfl, by simpa using htr, hat, (Except.ok.inj hstep).symm⟩

/-- The value `mapGet` returns is `undefined` or one of the map's stored
values. -/
theorem mapGet_mem_or_undefined (m : List (JSVal × JSVal)) (k : JSVal) :
    mapGet m k = .undefined ∨ ∃ kv ∈ m, mapGet m k = kv.2 := by
  induction m with
  | nil => left; rfl
  | cons kv0 m ih =>
    obtain ⟨k0, v0⟩ := kv0
    by_cases h0 : k0 = k
    · right
      refine ⟨(k0, v0), by simp, ?_⟩
      show (if k0 = k then v0 else mapGet m k) = v0
      rw [if_pos h0]
    · rcases ih with hu | ⟨kv, hkv, he⟩
      · left
        show (if k0 = k then v0 else mapGet m k) = .undefined
        rw [if_neg h0]
        exact hu
      · right
        refine ⟨kv, by simp [hkv], ?_⟩
        show (if k0 = k then v0 else mapGet m k) = kv.2
        rw [if_neg h0]
        exact he

/-- `mapSet` preserves a property of all stored values when the written
value has it. -/
theorem mapSet_all_values {P : JSVal → Prop} :
    ∀ (m : List (JSVal × JSVal)) (k v : JSVal),
      (∀ kv ∈ m, P kv.2) → P v → ∀ kv ∈ mapSet m k v, P kv.2 := by
  intro m
  induction m with
  | nil =>
    intro k v _ hv kv hkv
    rw [mapSet, List.mem_singleton] at hkv
    subst hkv
    exact hv
  | cons p m ih =>
    intro k v hm hv kv hkv
    obtain ⟨k0, v0⟩ := p
    rw [mapSet] at hkv
    by_cases h0 : k0 = k
    · rw [if_pos h0, List.mem_cons] at hkv
      rcases hkv with rfl | hkv
      · exact hv
      · exact hm kv (by simp [hkv])
    · rw [if_neg h0, List.mem_cons] at hkv
      rcases hkv with rfl | hkv
      · exact hm (k0, v0) (by simp)
      · exact ih k v (fun y hy => hm y (by simp [hy])) hv kv hkv

/-- Every value of the id index built by phase 1 is one of the iterated
records. -/
theorem buildIdMap_values {P : JSVal → Prop} (h : Heap) (id : String) :
    ∀ (items : List JSVal) (m idMap : List (JSVal × JSVal)),
      (∀ it ∈ items, P it) → (∀ kv ∈ m, P kv.2) →
      buildIdMap h id items m = .ok idMap → ∀ kv ∈ idMap, P kv.2 := by
  intro items
  induction items with
  | nil =>
    intro m idMap _ hm hb
    simp only [buildIdMap] at hb
    rw [← Except.ok.inj hb]
    exact hm
  | cons it rest ih =>
    intro m idMap hits hm hb
    simp only [buildIdMap] at hb
    cases hk : getProp h it id with
    | error e =>
      rw [hk] at hb
      exact Except.noConfusion hb
    | ok k =>
      rw [hk] at hb
      exact ih (mapSet m k it) idMap (fun y hy => hits y (by simp [hy]))
        (mapSet_all_values m k it hm (hits it (by simp))) hb

/-- A field found by `lookupField` is stored in the field list. -/
theorem lookupField_mem (fs : List (String × JSVal)) (key : String) :
    ∀ {v : JSVal}, lookupField fs key = some v → ∃ k, (k, v) ∈ fs := by
  induction fs with
  | nil =>
    intro v hl
    exact Option.noConfusion hl
  | cons kv fs ih =>
    intro v hl
    obtain ⟨k0, v0⟩ := kv
    rw [lookupField] at hl
    by_cases h0 : k0 = key
    · rw [if_pos h0] at hl
      refine ⟨k0, ?_⟩
      rw [← Option.some.inj hl]
      exact List.mem_cons_self _ _
    · rw [if_neg h0] at hl
      rcases ih hl with ⟨k, hk⟩
      exact ⟨k, List.mem_cons_of_mem _ hk⟩

/-- Cells read beyond the old length of an extended heap come from the
extension. -/
theorem extCells_objGE {h ext : Heap} {b : Nat}
    (hext : ∀ o ∈ ext, objGE b o = true) {r : Nat} {o : HObj}
    (hr : h.length ≤ r) (ho : (h ++ ext)[r]? = some o) : objGE b o = true := by
  rw [List.getElem?_append_right hr] at ho
  exact hext o (List.getElem?_mem ho)

/-- A successful `getElems` dereferences an array cell. -/
theorem getElems_ok {h : Heap} {v : JSVal} {es : List JSVal}
    (he : getElems h v = .ok es) : ∃ r, v = .ref r ∧ h[r]? = some (.arr es) := by
  cases v with
  | num n => exact Except.noConfusion he
  | str s => exact Except.noConfusion he
  | bool b => exact Except.noConfusion he
  | null => exact Except.noConfusion he
  | undefined => exact Except.noConfusion he
  | ref r =>
    have he2 : (match h[r]? with
        | some (HObj.arr es1) => (Except.ok es1 : Except String (List JSVal))
        | some (HObj.obj fs) => Except.error "TypeError: forEach is not a function"
        | none => Except.error "invalid reference") = Except.ok es := he
    cases hc : h[r]? with
    | none =>
      rw [hc] at he2
      exact Except.noConfusion he2
    | some o =>
      cases o with
      | obj fs =>
        rw [hc] at he2
        exact Except.noConfusion he2
      | arr es1 =>
        rw [hc] at he2
        exact ⟨r, rfl, by rw [hc, Except.ok.inj he2]⟩

/-- Frame property of one `attachToParent` call: when the parent
reference and the attached record are fresh relative to the first `b`
cells, and every cell from index `b` on only references cells from `b`
on, the first `b` cells are untouched and the suffix stays `b`-fresh. -/
theorem attachToParent_frame (children : String) {b : Nat} {hs : Heap}
    {parent it : JSVal} {h3 : Heap}
    (hlen : b ≤ hs.length)
    (hsuf : ∀ r, b ≤ r → ∀ o, hs[r]? = some o → objGE b o = true)
    (hpar : valGE b parent = true) (hit : valGE b it = true)
    (hat : attachToParent children hs parent it = .ok h3) :
    b ≤ h3.length ∧ (∀ r < b, h3[r]? = hs[r]?) ∧
    (∀ r, b ≤ r → ∀ o, h3[r]? = some o → objGE b o = true) := by
  rcases attachToParent_cases children hs parent it h3 hat with
    ⟨rp, fs, hpeq, hcell, htr, hres⟩ | ⟨rp, fs, rc, es0, hpeq, hcell, hlf, hc2, hres⟩
  · have hrp : b ≤ rp := by
      rw [hpeq] at hpar
      simpa [valGE] using hpar
    have hrplt : rp < hs.length := (List.getElem?_eq_some.mp hcell).1
    subst hres
    refine ⟨?_, ?_, ?_⟩
    · simp only [List.length_set, List.length_append, List.length_singleton]
      omega
    · intro r hr
      rw [List.getElem?_set_ne (by omega), List.getElem?_set_ne (by omega),
        List.getElem?_append_left (by omega)]
    · intro r hbr o ho
      by_cases hr1 : r = hs.length
      · subst hr1
        rw [List.getElem?_set_self (by
          simp only [List.length_set, List.length_append, List.length_singleton]
          omega)] at ho
        rw [← Option.some.inj ho]
        simp only [objGE, List.all_cons, List.all_nil, Bool.and_true]
        exact hit
      · by_cases hr2 : r = rp
        · subst hr2
          rw [List.getElem?_set_ne (fun he => hr1 he.symm),
            List.getElem?_set_self (by
              simp only [List.length_append, List.length_singleton]
              omega)] at ho
          rw [← Option.some.inj ho]
          refine objGE_setField (hsuf r hbr _ hcell) ?_
          simp only [valGE]
          exact decide_eq_true hlen
        · rw [List.getElem?_set_ne (fun he => hr1 he.symm),
            List.getElem?_set_ne (fun he => hr2 he.symm)] at ho
          by_cases hr3 : r < hs.length
          · rw [List.getElem?_append_left hr3] at ho
            exact hsuf r hbr o ho
          · rw [List.getElem?_append_right (by omega)] at ho
            rw [show ([HObj.arr []] : Heap)[r - hs.length]? = none from
              List.getElem?_eq_none_iff.mpr (by
                simp only [List.length_singleton]
                omega)] at ho
            exact Option.noConfusion ho
  · have hrp : b ≤ rp := by
      rw [hpeq] at hpar
      simpa [valGE] using hpar
    have hofs : objGE b (HObj.obj fs) = true := hsuf rp hrp _ hcell
    have hrc : b ≤ rc := by
      rcases lookupField_mem fs children hlf with ⟨k, hk⟩
      simp only [objGE, List.all_eq_true] at hofs
      have hv := hofs (k, JSVal.ref rc) hk
      simpa [valGE] using hv
    have hrclt : rc < hs.length := (List.getElem?_eq_some.mp hc2).1
    have hoarr : objGE b (HObj.arr es0) = true := hsuf rc hrc _ hc2
    subst hres
    refine ⟨?_, ?_, ?_⟩
    · simp only [List.length_set]
      omega
    · intro r hr
      rw [List.getElem?_set_ne (by omega)]
    · intro r hbr o ho
      by_cases hr2 : r = rc
      · subst hr2
        rw [List.getElem?_set_self hrclt] at ho
        rw [← Option.some.inj ho]
        simp only [objGE, List.all_append, List.all_cons, List.all_nil,
          Bool.and_true, Bool.and_eq_true] at hoarr ⊢
        exact ⟨hoarr, hit⟩
      · rw [List.getElem?_set_ne (fun he => hr2 he.symm)] at ho
        exact hsuf r hbr o ho

/-- Frame property of one `attachStep`: the invariant of
`attachToParent_frame` is preserved whether the record becomes a root or
is attached to its parent. -/
theorem attachStep_frame (pid children : String) {b : Nat}
    {idMap : List (JSVal × JSVal)} {st st' : Heap × List JSVal} {it : JSVal}
    (hlen : b ≤ st.1.length)
    (hsuf : ∀ r, b ≤ r → ∀ o, st.1[r]? = some o → objGE b o = true)
    (hmap : ∀ kv ∈ idMap, valGE b kv.2 = true)
    (hit : valGE b it = true)
    (hstep : attachStep pid children idMap st it = .ok st') :
    b ≤ st'.1.length ∧ (∀ r < b, st'.1[r]? = st.1[r]?) ∧
    (∀ r, b ≤ r → ∀ o, st'.1[r]? = some o → objGE b o = true) := by
  rcases attachStep_cases pid children idMap st it st' hstep with
    ⟨pv, hpv, htr, hst⟩ | ⟨pv, h3, hpv, htr, hat, hst⟩
  · subst hst
    exact ⟨hlen, fun r hr => rfl, hsuf⟩
  · subst hst
    have hpar : valGE b (mapGet idMap pv) = true := by
      rcases mapGet_mem_or_undefined idMap pv with hu | ⟨kv, hkv, he⟩
      · rw [hu]
        rfl
      · rw [he]
        exact hmap kv hkv
    exact attachToParent_frame children hlen hsuf hpar hit hat

/-- Frame property of phase 2: folding `attachStep` over fresh records
with a fresh id index never writes into the first `b` cells. -/
theorem attachAll_frame (pid children : String) {b : Nat}
    {idMap : List (JSVal × JSVal)} :
    ∀ (items : List JSVal) (st st' : Heap × List JSVal),
      b ≤ st.1.length →
      (∀ r, b ≤ r → ∀ o, st.1[r]? = some o → objGE b o = true) →
      (∀ kv ∈ idMap, valGE b kv.2 = true) →
      (∀ it ∈ items, valGE b it = true) →
      attachAll pid children idMap items st = .ok st' →
      ∀ r < b, st'.1[r]? = st.1[r]? := by
  intro items
  induction items with
  | nil =>
    intro st st' _ _ _ _ hall r hr
    simp only [attachAll] at hall
    rw [← Except.ok.inj hall]
  | cons it rest ih =>
    intro st st' hlen hsuf hmap hits hall r hr
    simp only [attachAll] at hall
    cases hstep : attachStep pid children idMap st it with
    | error e =>
      rw [hstep] at hall
      exact Except.noConfusion hall
    | ok st1 =>
      rw [hstep] at hall
      obtain ⟨hlen1, hpre1, hsuf1⟩ :=
        attachStep_frame pid children hlen hsuf hmap (hits it (by simp)) hstep
      rw [ih st1 st' hlen1 hsuf1 hmap (fun y hy => hits y (by simp [hy])) hall r hr,
        hpre1 r hr]

/-- Claim C6: `arrayToTree` never mutates the caller's data.  On a closed
heap, a normally-returning run leaves every pre-existing heap cell — the
caller's list and every record in it — exactly as it was: all writes
during tree building hit only cells allocated by the initial deep clone
or later. -/
theorem arrayToTree_no_caller_mutation (fuel : Nat) (h : Heap) (arr : JSVal)
    (id pid children : String) (h' : Heap) (tr : JSVal)
    (hc : heapClosed h = true) (harr : valLT h.length arr = true)
    (hrun : arrayToTree fuel h arr id pid children = some (.ok (h', tr))) :
    ∀ r < h.length, h'[r]? = h[r]? := by
  intro r hr
  rw [arrayToTree] at hrun
  split at hrun
  · exact Option.noConfusion hrun
  · rename_i h1 data hcl
    split at hrun
    · exact Except.noConfusion (Option.some.inj hrun)
    · rename_i items hel
      split at hrun
      · exact Except.noConfusion (Option.some.inj hrun)
      · rename_i idMap hbim
        split at hrun
        · exact Except.noConfusion (Option.some.inj hrun)
        · rename_i h2 tree hall
          have hpair := Except.ok.inj (Option.some.inj hrun)
          have hh' : h2 ++ [HObj.arr tree] = h' := congrArg Prod.fst hpair
          obtain ⟨⟨ext, hheq, hext⟩, hc1, hlt1, hge1, -⟩ :=
            (cloneAll_sound fuel).1 h arr h1 data hc harr hcl
          obtain ⟨rd, hdata, hcell⟩ := getElems_ok hel
          have hrd : h.length ≤ rd := by
            rw [hdata] at hge1
            simpa [valGE] using hge1
          have hitems : ∀ x ∈ items, valGE h.length x = true := by
            have hoarr : objGE h.length (HObj.arr items) = true := by
              rw [hheq] at hcell
              exact extCells_objGE hext hrd hcell
            simpa only [objGE, List.all_eq_true] using hoarr
          have hvmap : ∀ kv ∈ idMap, valGE h.length kv.2 = true :=
            buildIdMap_values h1 id items [] idMap hitems
              (fun kv hkv => absurd hkv (List.not_mem_nil kv)) hbim
          have hlen0 : h.length ≤ h1.length := by
            rw [hheq, List.length_append]
            omega
          have hsuf0 : ∀ r', h.length ≤ r' → ∀ o, h1[r']? = some o →
              objGE h.length o = true := by
            intro r' hr' o ho
            rw [hheq] at ho
            exact extCells_objGE hext hr' ho
          have hpre := attachAll_frame pid children items (h1, []) (h2, tree)
            hlen0 hsuf0 hvmap hitems hall
          have hhr : h[r]? = some h[r] := List.getElem?_eq_getElem hr
          have h1r : h1[r]? = some h[r] := by
            rw [hheq, List.getElem?_append_left hr]
            exact hhr
          have h2r : h2[r]? = some h[r] := by
            have hq : h2[r]? = h1[r]? := hpre r hr
            rw [hq]
            exact h1r
          rw [← hh', getElem?_mono_append [HObj.arr tree] h2r, hhr]

/-- The flat input of the spec's `arrayToTree` example (section 4.3):
records `{id:1,pid:0}` and `{id:2,pid:1}` in a caller-owned array. -/
def attExH : Heap :=
  [.obj [("id", .num 1), ("pid", .num 0)],
   .obj [("id", .num 2), ("pid", .num 1)],
   .arr [.ref 0, .ref 1]]

/-- The heap after `arrayToTree` on `attExH`: cells 0-2 (the caller's
records and list) are untouched; cells 3-7 hold the clones, the created
children array, and the root list. -/
def attExHRes : Heap :=
  [.obj [("id", .num 1), ("pid", .num 0)],
   .obj [("id", .num 2), ("pid", .num 1)],
   .arr [.ref 0, .ref 1],
   .obj [("id", .num 1), ("pid", .num 0), ("children", .ref 6)],
   .obj [("id", .num 2), ("pid", .num 1)],
   .arr [.ref 3, .ref 4],
   .arr [.ref 4],
   .arr [.ref 3]]

/-- Witness for `arrayToTree_no_caller_mutation`: the concrete run on
`attExH` leaves the caller's first record cell untouched. -/
theorem arrayToTree_no_caller_mutation_witness :
    heapClosed attExH = true ∧ attExHRes[1]? = attExH[1]? := by
  refine ⟨by decide, ?_⟩
  exact arrayToTree_no_caller_mutation 10 attExH (.ref 2) "id" "pid" "children"
    attExHRes (.ref 7) (by decide) (by decide) rfl 1 (by decide)

/-- Whether a value is a primitive (not a heap reference). -/
def isPrim : JSVal → Bool
  | .ref _ => false
  | _ => true

/-- Field-list correspondence along a deep clone: keys are preserved in
order, primitive values are copied verbatim, references stay
references. -/
def FieldRel (fs fs' : List (String × JSVal)) : Prop :=
  List.Forall₂ (fun kv kv' => kv'.1 = kv.1 ∧
    (isPrim kv.2 = true → kv'.2 = kv.2) ∧
    (isPrim kv.2 = false → isPrim kv'.2 = false)) fs fs'

/-- Value correspondence along a deep clone from heap `h` into heap `h'`:
primitives are copied verbatim, and a reference to an object cell maps to
a reference to an object cell with `FieldRel`-related fields. -/
def CloneRel (h h' : Heap) (e e' : JSVal) : Prop :=
  (isPrim e = true → e' = e) ∧
  (∀ r, e = .ref r → ∃ rr, e' = .ref rr ∧
    ∀ fs, h[r]? = some (.obj fs) → ∃ fs', h'[rr]? = some (.obj fs') ∧ FieldRel fs fs')

/-- `CloneRel` survives further growth of the target heap. -/
theorem CloneRel_mono_tgt {h h' h'' : Heap} {e e' : JSVal}
    (hag : ∀ (r : Nat) (o : HObj), h'[r]? = some o → h''[r]? = some o)
    (hrel : CloneRel h h' e e') : CloneRel h h'' e e' := by
  refine ⟨hrel.1, ?_⟩
  intro r hr
  obtain ⟨rr, hrr, hcellmap⟩ := hrel.2 r hr
  refine ⟨rr, hrr, ?_⟩
  intro fs hfs
  obtain ⟨fs', hfs', hfr⟩ := hcellmap fs hfs
  exact ⟨fs', hag rr _ hfs', hfr⟩

/-- `CloneRel` restricts along growth of the source heap: cells of the
smaller source heap persist into the bigger one. -/
theorem CloneRel_mono_src {h h2 h' : Heap} {e e' : JSVal}
    (hag : ∀ (r : Nat) (o : HObj), h[r]? = some o → h2[r]? = some o)
    (hrel : CloneRel h2 h' e e') : CloneRel h h' e e' := by
  refine ⟨hrel.1, ?_⟩
  intro r hr
  obtain ⟨rr, hrr, hcellmap⟩ := hrel.2 r hr
  exact ⟨rr, hrr, fun fs hfs => hcellmap fs (hag r _ hfs)⟩

/-- A clone of a non-primitive value is non-primitive. -/
theorem CloneRel_nonprim {h h' : Heap} {e e' : JSVal}
    (hrel : CloneRel h h' e e') (hp : isPrim e = false) : isPrim e' = false := by
  cases e with
  | ref r =>
    obtain ⟨rr, hrr, -⟩ := hrel.2 r rfl
    rw [hrr]
    rfl
  | num m => exact Bool.noConfusion hp
  | str s => exact Bool.noConfusion hp
  | bool b => exact Bool.noConfusion hp
  | null => exact Bool.noConfusion hp
  | undefined => exact Bool.noConfusion hp

/-- `CloneRel` soundness of one `deepClone` call at fuel `n`. -/
def CPVal (n : Nat) : Prop :=
  ∀ (h : Heap) (v : JSVal) (h' : Heap) (v' : JSVal),
    deepCloneFuel n h v = some (h', v') →
    (∃ ext, h' = h ++ ext) ∧ CloneRel h h' v v'

/-- `CloneRel` soundness of the element-cloning loop at fuel `n`. -/
def CPList (n : Nat) : Prop :=
  ∀ (h : Heap) (es : List JSVal) (h' : Heap) (es' : List JSVal),
    cloneListWith (deepCloneFuel n) h es = some (h', es') →
    (∃ ext, h' = h ++ ext) ∧ List.Forall₂ (CloneRel h h') es es'

/-- `CloneRel` soundness of the field-cloning loop at fuel `n`. -/
def CPFields (n : Nat) : Prop :=
  ∀ (h : Heap) (fs : List (String × JSVal)) (h' : Heap) (fs' : List (String × JSVal)),
    cloneFieldsWith (deepCloneFuel n) h fs = some (h', fs') →
    (∃ ext, h' = h ++ ext) ∧ FieldRel fs fs'

/-- `deepClone` preserves keys and primitive field values of every cloned
record, at every fuel (mutual induction on the fuel). -/
theorem clonePrim_sound : ∀ n : Nat, CPVal n ∧ CPList n ∧ CPFields n := by
  intro n
  induction n with
  | zero =>
    refine ⟨?_, ?_, ?_⟩
    · intro h v h' v' hcl
      simp [deepCloneFuel] at hcl
    · intro h es h' es' hcl
      cases es with
      | nil =>
        simp only [cloneListWith, Option.some.injEq, Prod.mk.injEq] at hcl
        obtain ⟨rfl, rfl⟩ := hcl
        exact ⟨⟨[], by simp⟩, List.Forall₂.nil⟩
      | cons e es => simp [cloneListWith, deepCloneFuel] at hcl
    · intro h fs h' fs' hcl
      cases fs with
      | nil =>
        simp only [cloneFieldsWith, Option.some.injEq, Prod.mk.injEq] at hcl
        obtain ⟨rfl, rfl⟩ := hcl
        exact ⟨⟨[], by simp⟩, List.Forall₂.nil⟩
      | cons kv fs =>
        obtain ⟨k, w⟩ := kv
        simp [cloneFieldsWith, deepCloneFuel] at hcl
  | succ n ih =>
    obtain ⟨Pn, Ln, Fn⟩ := ih
    have Psucc : CPVal (n + 1) := by
      intro h v h' v' hcl
      cases v with
      | ref r =>
        rw [deepCloneFuel] at hcl
        cases ho : h[r]? with
        | none => rw [ho] at hcl; cases hcl
        | some o =>
          rw [ho] at hcl
          cases o with
          | arr es =>
            have hcl2 : (match cloneListWith (deepCloneFuel n) h es with
                | some (h1, es') => some (h1 ++ [HObj.arr es'], JSVal.ref h1.length)
                | none => none) = some (h', v') := hcl
            cases hcls : cloneListWith (deepCloneFuel n) h es with
            | none => rw [hcls] at hcl2; exact Option.noConfusion hcl2
            | some res =>
              obtain ⟨h1, es'⟩ := res
              rw [hcls] at hcl2
              have hcl3 : (some (h1 ++ [HObj.arr es'], JSVal.ref h1.length) :
                  Option (Heap × JSVal)) = some (h', v') := hcl2
              simp only [Option.some.injEq, Prod.mk.injEq] at hcl3
              obtain ⟨rfl, rfl⟩ := hcl3
              obtain ⟨⟨ext1, rfl⟩, -⟩ := Ln h es h1 es' hcls
              refine ⟨⟨ext1 ++ [HObj.arr es'], by simp⟩,
                fun hp => Bool.noConfusion hp, ?_⟩
              intro r0 hr0
              have hr0e := JSVal.ref.inj hr0
              subst hr0e
              refine ⟨(h ++ ext1).length, rfl, ?_⟩
              intro fs0 hfs0
              rw [ho] at hfs0
              exact HObj.noConfusion (Option.some.inj hfs0)
          | obj fs =>
            have hcl2 : (match cloneFieldsWith (deepCloneFuel n) h fs with
                | some (h1, fs') => some (h1 ++ [HObj.obj fs'], JSVal.ref h1.length)
                | none => none) = some (h', v') := hcl
            cases hcls : cloneFieldsWith (deepCloneFuel n) h fs with
            | none => rw [hcls] at hcl2; exact Option.noConfusion hcl2
            | some res =>
              obtain ⟨h1, fs'⟩ := res
              rw [hcls] at hcl2
              have hcl3 : (some (h1 ++ [HObj.obj fs'], JSVal.ref h1.length) :
                  Option (Heap × JSVal)) = some (h', v') := hcl2
              simp only [Option.some.injEq, Prod.mk.injEq] at hcl3
              obtain ⟨rfl, rfl⟩ := hcl3
              obtain ⟨⟨ext1, rfl⟩, hfr⟩ := Fn h fs h1 fs' hcls
              refine ⟨⟨ext1 ++ [HObj.obj fs'], by simp⟩,
                fun hp => Bool.noConfusion hp, ?_⟩
              intro r0 hr0
              have hr0e := JSVal.ref.inj hr0
              subst hr0e
              refine ⟨(h ++ ext1).length, rfl, ?_⟩
              intro fs0 hfs0
              rw [ho] at hfs0
              have hfs0e := HObj.obj.inj (Option.some.inj hfs0)
              subst hfs0e
              exact ⟨fs', List.getElem?_concat_length _ _, hfr⟩
      | num m =>
        simp only [deepCloneFuel, Option.some.injEq, Prod.mk.injEq] at hcl
        obtain ⟨rfl, rfl⟩ := hcl
        exact ⟨⟨[], by simp⟩, fun _ => rfl, fun r0 hr0 => JSVal.noConfusion hr0⟩
      | str s =>
        simp only [deepCloneFuel, Option.some.injEq, Prod.mk.injEq] at hcl
        obtain ⟨rfl, rfl⟩ := hcl
        exact ⟨⟨[], by simp⟩, fun _ => rfl, fun r0 hr0 => JSVal.noConfusion hr0⟩
      | bool b =>
        simp only [deepCloneFuel, Option.some.injEq, Prod.mk.injEq] at hcl
        obtain ⟨rfl, rfl⟩ := hcl
        exact ⟨⟨[], by simp⟩, fun _ => rfl, fun r0 hr0 => JSVal.noConfusion hr0⟩
      | null =>
        simp only [deepCloneFuel, Option.some.injEq, Prod.mk.injEq] at hcl
        obtain ⟨rfl, rfl⟩ := hcl
        exact ⟨⟨[], by simp⟩, fun _ => rfl, fun r0 hr0 => JSVal.noConfusion hr0⟩
      | undefined =>
        simp only [deepCloneFuel, Option.some.injEq, Prod.mk.injEq] at hcl
        obtain ⟨rfl, rfl⟩ := hcl
        exact ⟨⟨[], by simp⟩, fun _ => rfl, fun r0 hr0 => JSVal.noConfusion hr0⟩
    have Lsucc : CPList (n + 1) := by
      intro h es
      induction es generalizing h with
      | nil =>
        intro h' es' hcl
        simp only [cloneListWith, Option.some.injEq, Prod.mk.injEq] at hcl
        obtain ⟨rfl, rfl⟩ := hcl
        exact ⟨⟨[], by simp⟩, List.Forall₂.nil⟩
      | cons e es ihes =>
        intro h' es' hcl
        rw [cloneListWith] at hcl
        cases hce : deepCloneFuel (n + 1) h e with
        | none => rw [hce] at hcl; exact Option.noConfusion hcl
        | some res1 =>
          obtain ⟨hm, e'⟩ := res1
          rw [hce] at hcl
          have hcl2 : (match cloneListWith (deepCloneFuel (n + 1)) hm es with
              | none => none
              | some (h2, es2) => some (h2, e' :: es2)) = some (h', es') := hcl
          cases hcr : cloneListWith (deepCloneFuel (n + 1)) hm es with
          | none => rw [hcr] at hcl2; exact Option.noConfusion hcl2
          | some res2 =>
            obtain ⟨h2, es2⟩ := res2
            rw [hcr] at hcl2
            have hcl3 : (some (h2, e' :: es2) : Option (Heap × List JSVal)) =
                some (h', es') := hcl2
            simp only [Option.some.injEq, Prod.mk.injEq] at hcl3
            obtain ⟨rfl, rfl⟩ := hcl3
            obtain ⟨⟨ext1, rfl⟩, hrel1⟩ := Psucc h e hm e' hce
            obtain ⟨⟨ext2, rfl⟩, hrel2⟩ := ihes (h ++ ext1) h2 es2 hcr
            refine ⟨⟨ext1 ++ ext2, by simp⟩, ?_⟩
            refine List.Forall₂.cons ?_ ?_
            · exact CloneRel_mono_tgt
                (fun r o hro => getElem?_mono_append ext2 hro) hrel1
            · exact List.Forall₂.imp (fun a b hab =>
                CloneRel_mono_src (fun r o hro => getElem?_mono_append ext1 hro) hab)
                hrel2
    have Fsucc : CPFields (n + 1) := by
      intro h fs
      induction fs generalizing h with
      | nil =>
        intro h' fs' hcl
        simp only [cloneFieldsWith, Option.some.injEq, Prod.mk.injEq] at hcl
        obtain ⟨rfl, rfl⟩ := hcl
        exact ⟨⟨[], by simp⟩, List.Forall₂.nil⟩
      | cons kw fs ihfs =>
        intro h' fs' hcl
        obtain ⟨k, w⟩ := kw
        rw [cloneFieldsWith] at hcl
        cases hce : deepCloneFuel (n + 1) h w with
        | none => rw [hce] at hcl; exact Option.noConfusion hcl
        | some res1 =>
          obtain ⟨hm, w'⟩ := res1
          rw [hce] at hcl
          have hcl2 : (match cloneFieldsWith (deepCloneFuel (n + 1)) hm fs with
              | none => none
              | some (h2, fs2) => some (h2, (k, w') :: fs2)) = some (h', fs') := hcl
          cases hcr : cloneFieldsWith (deepCloneFuel (n + 1)) hm fs with
          | none => rw [hcr] at hcl2; exact Option.noConfusion hcl2
          | some res2 =>
            obtain ⟨h2, fs2⟩ := res2
            rw [hcr] at hcl2
            have hcl3 : (some (h2, (k, w') :: fs2) :
                Option (Heap × List (String × JSVal))) = some (h', fs') := hcl2
            simp only [Option.some.injEq, Prod.mk.injEq] at hcl3
            obtain ⟨rfl, rfl⟩ := hcl3
            obtain ⟨⟨ext1, rfl⟩, hrel1⟩ := Psucc h w hm w' hce
            obtain ⟨⟨ext2, rfl⟩, hrel2⟩ := ihfs (h ++ ext1) h2 fs2 hcr
            refine ⟨⟨ext1 ++ ext2, by simp⟩, ?_⟩
            refine List.Forall₂.cons ⟨rfl, hrel1.1, fun hp => CloneRel_nonprim hrel1 hp⟩
              hrel2
    exact ⟨Psucc, Lsucc, Fsucc⟩

/-- `lookupField` along `FieldRel`: absent stays absent, a present value
maps to a related value. -/
theorem FieldRel_lookup {fs fs' : List (String × JSVal)} (hfr : FieldRel fs fs')
    (key : String) :
    (lookupField fs key = none → lookupField fs' key = none) ∧
    (∀ v, lookupField fs key = some v →
      ∃ v', lookupField fs' key = some v' ∧ (isPrim v = true → v' = v) ∧
        (isPrim v = false → isPrim v' = false)) := by
  induction fs generalizing fs' with
  | nil =>
    cases hfr
    exact ⟨fun _ => rfl, fun v hv => Option.noConfusion hv⟩
  | cons kv fs ih =>
    cases hfr with
    | cons hab htail =>
      rename_i b fs2
      obtain ⟨k0, w0⟩ := kv
      obtain ⟨k1, w1⟩ := b
      obtain ⟨hk, hprimp, hnonp⟩ := hab
      have hk2 : k1 = k0 := hk
      have hprimp2 : isPrim w0 = true → w1 = w0 := hprimp
      have hnonp2 : isPrim w0 = false → isPrim w1 = false := hnonp
      constructor
      · intro hnone
        rw [lookupField] at hnone
        by_cases h0 : k0 = key
        · rw [if_pos h0] at hnone
          exact Option.noConfusion hnone
        · rw [if_neg h0] at hnone
          show (if k1 = key then some w1 else lookupField fs2 key) = none
          rw [hk2, if_neg h0]
          exact (ih htail).1 hnone
      · intro v hv
        rw [lookupField] at hv
        by_cases h0 : k0 = key
        · rw [if_pos h0] at hv
          have hw := Option.some.inj hv
          subst hw
          refine ⟨w1, ?_, hprimp2, hnonp2⟩
          show (if k1 = key then some w1 else lookupField fs2 key) = some w1
          rw [hk2, if_pos h0]
        · rw [if_neg h0] at hv
          obtain ⟨v', hv', hp', hn'⟩ := (ih htail).2 v hv
          refine ⟨v', ?_, hp', hn'⟩
          show (if k1 = key then some w1 else lookupField fs2 key) = some v'
          rw [hk2, if_neg h0]
          exact hv'

/-- A member of the left list of a `Forall₂` has a related member on the
right. -/
theorem forall2_mem_left {α β : Type} {R : α → β → Prop} :
    ∀ {l1 : List α} {l2 : List β}, List.Forall₂ R l1 l2 →
      ∀ a ∈ l1, ∃ b ∈ l2, R a b := by
  intro l1
  induction l1 with
  | nil =>
    intro l2 hf a ha
    exact absurd ha (List.not_mem_nil a)
  | cons x l1 ih =>
    intro l2 hf a ha
    cases hf with
    | cons hxy htail =>
      rename_i y l2'
      rcases List.mem_cons.mp ha with rfl | ha'
      · exact ⟨y, by simp, hxy⟩
      · obtain ⟨b, hb, hrb⟩ := ih htail a ha'
        exact ⟨b, by simp [hb], hrb⟩

/-- A member of the right list of a `Forall₂` has a related member on the
left. -/
theorem forall2_mem_right {α β : Type} {R : α → β → Prop} :
    ∀ {l1 : List α} {l2 : List β}, List.Forall₂ R l1 l2 →
      ∀ b ∈ l2, ∃ a ∈ l1, R a b := by
  intro l1
  induction l1 with
  | nil =>
    intro l2 hf b hb
    cases hf
    exact absurd hb (List.not_mem_nil b)
  | cons x l1 ih =>
    intro l2 hf b hb
    cases hf with
    | cons hxy htail =>
      rename_i y l2'
      rcases List.mem_cons.mp hb with rfl | hb'
      · exact ⟨x, by simp, hxy⟩
      · obtain ⟨a, ha, hra⟩ := ih htail b hb'
        exact ⟨a, by simp [ha], hra⟩

/-- A key stored under no entry of the map reads back as `undefined`. -/
theorem mapGet_no_key (m : List (JSVal × JSVal)) (k : JSVal)
    (hk : ∀ kv ∈ m, kv.1 ≠ k) : mapGet m k = .undefined := by
  induction m with
  | nil => rfl
  | cons kv m ih =>
    obtain ⟨k0, v0⟩ := kv
    show (if k0 = k then v0 else mapGet m k) = .undefined
    rw [if_neg (hk (k0, v0) (by simp))]
    exact ih (fun y hy => hk y (by simp [hy]))

/-- Keys of `mapSet m k v` are `k` or keys of `m`. -/
theorem mapSet_keys : ∀ (m : List (JSVal × JSVal)) (k v : JSVal) (kv : JSVal × JSVal),
    kv ∈ mapSet m k v → kv.1 = k ∨ ∃ kv1 ∈ m, kv1.1 = kv.1 := by
  intro m
  induction m with
  | nil =>
    intro k v kv hkv
    rw [mapSet, List.mem_singleton] at hkv
    subst hkv
    exact Or.inl rfl
  | cons p m ih =>
    intro k v kv hkv
    obtain ⟨k0, v0⟩ := p
    rw [mapSet] at hkv
    by_cases h0 : k0 = k
    · rw [if_pos h0, List.mem_cons] at hkv
      rcases hkv with rfl | hkv
      · exact Or.inl h0
      · exact Or.inr ⟨kv, by simp [hkv], rfl⟩
    · rw [if_neg h0, List.mem_cons] at hkv
      rcases hkv with rfl | hkv
      · exact Or.inr ⟨(k0, v0), by simp, rfl⟩
      · rcases ih k v kv hkv with hk | ⟨kv1, hkv1, hk1⟩
        · exact Or.inl hk
        · exact Or.inr ⟨kv1, by simp [hkv1], hk1⟩

/-- Every key of the id index built by phase 1 came from the base map or
is the id-field value of one of the iterated records. -/
theorem buildIdMap_keys (h : Heap) (id : String) :
    ∀ (items : List JSVal) (m idMap : List (JSVal × JSVal)),
      buildIdMap h id items m = .ok idMap →
      ∀ kv ∈ idMap, (∃ kv0 ∈ m, kv0.1 = kv.1) ∨
        ∃ it ∈ items, getProp h it id = .ok kv.1 := by
  intro items
  induction items with
  | nil =>
    intro m idMap hb kv hkv
    simp only [buildIdMap] at hb
    rw [← Except.ok.inj hb] at hkv
    exact Or.inl ⟨kv, hkv, rfl⟩
  | cons it rest ih =>
    intro m idMap hb kv hkv
    simp only [buildIdMap] at hb
    cases hg : getProp h it id with
    | error e =>
      rw [hg] at hb
      exact Except.noConfusion hb
    | ok k =>
      rw [hg] at hb
      rcases ih (mapSet m k it) idMap hb kv hkv with ⟨kv0, hkv0, hkey⟩ | ⟨it2, hit2, hgot⟩
      · rcases mapSet_keys m k it kv0 hkv0 with hkk | ⟨kv1, hkv1, hk1⟩
        · refine Or.inr ⟨it, by simp, ?_⟩
          rw [← hkey, hkk]
          exact hg
        · exact Or.inl ⟨kv1, by simp [hkv1], hk1.trans hkey⟩
      · exact Or.inr ⟨it2, by simp [hit2], hgot⟩

/-- A successful `attachStep` keeps every object cell an object cell and
never changes a field other than the children field. -/
theorem attachStep_preserves_field (pid children : String) (hne : pid ≠ children)
    {idMap : List (JSVal × JSVal)} {st st' : Heap × List JSVal} {it : JSVal}
    {ib : Nat} {fsb : List (String × JSVal)}
    (hstep : attachStep pid children idMap st it = .ok st')
    (hcellb : st.1[ib]? = some (.obj fsb)) :
    ∃ fsb', st'.1[ib]? = some (.obj fsb') ∧
      lookupField fsb' pid = lookupField fsb pid := by
  rcases attachStep_cases pid children idMap st it st' hstep with
    ⟨pv, hpv, htr0, hst⟩ | ⟨pv, h3, hpv, htr0, hat, hst⟩
  · subst hst
    exact ⟨fsb, hcellb, rfl⟩
  · subst hst
    have hib : ib < st.1.length := (List.getElem?_eq_some.mp hcellb).1
    rcases attachToParent_cases children st.1 (mapGet idMap pv) it h3 hat with
      ⟨rp, fs, hpeq, hcell, htrc, hres⟩ | ⟨rp, fs, rc, es0, hpeq, hcell, hlf, hc2, hres⟩
    · subst hres
      by_cases heq : ib = rp
      · subst heq
        rw [hcell] at hcellb
        have hfs := HObj.obj.inj (Option.some.inj hcellb)
        refine ⟨setField fs children (JSVal.ref st.1.length), ?_, ?_⟩
        · rw [List.getElem?_set_ne (by omega),
            List.getElem?_set_self (by
              simp only [List.length_append, List.length_singleton]
              omega)]
        · rw [lookupField_setField_ne fs children _ pid hne, hfs]
      · refine ⟨fsb, ?_, rfl⟩
        rw [List.getElem?_set_ne (by omega),
          List.getElem?_set_ne (fun hh => heq hh.symm),
          List.getElem?_append_left hib]
        exact hcellb
    · subst hres
      by_cases heq : ib = rc
      · subst heq
        rw [hc2] at hcellb
        exact HObj.noConfusion (Option.some.inj hcellb)
      · refine ⟨fsb, ?_, rfl⟩
        rw [List.getElem?_set_ne (fun hh => heq hh.symm)]
        exact hcellb

/-- A record whose parent-key value is truthy but absent from the id
index makes `attachStep` throw: the `undefined` parent is dereferenced. -/
theorem attachStep_bad (pid children : String) {idMap : List (JSVal × JSVal)}
    {st : Heap × List JSVal} {it pv : JSVal}
    (hpv : getProp st.1 it pid = .ok pv) (htr : truthy pv = true)
    (hm : mapGet idMap pv = .undefined) :
    attachStep pid children idMap st it =
      .error "TypeError: Cannot read properties of undefined" := by
  rw [attachStep, hpv]
  simp only [Except.bind_ok_left]
  rw [if_neg (by simp [htr]), hm]
  rfl

/-- Folding `attachStep` over records that include one with a truthy
parent-key value whose parent is missing from the id index never returns
normally. -/
theorem attachAll_bad_not_ok (pid children : String) (hne : pid ≠ children)
    {idMap : List (JSVal × JSVal)} {pvb : JSVal} {ib : Nat}
    (htr : truthy pvb = true) (hm : mapGet idMap pvb = .undefined) :
    ∀ (items : List JSVal) (st : Heap × List JSVal) (fsb : List (String × JSVal)),
      .ref ib ∈ items →
      st.1[ib]? = some (.obj fsb) → lookupField fsb pid = some pvb →
      ∀ st', attachAll pid children idMap items st ≠ .ok st' := by
  intro items
  induction items with
  | nil =>
    intro st fsb hmem
    exact absurd hmem (List.not_mem_nil _)
  | cons it rest ih =>
    intro st fsb hmem hcellb hlfb st' hall
    simp only [attachAll] at hall
    cases hstep : attachStep pid children idMap st it with
    | error e =>
      rw [hstep] at hall
      exact Except.noConfusion hall
    | ok st1 =>
      rw [hstep] at hall
      rcases List.mem_cons.mp hmem with hbadit | hmem'
      · have hpv : getProp st.1 (.ref ib) pid = .ok pvb := by
          rw [getProp_obj pid hcellb, hlfb]
          rfl
        rw [hbadit] at hpv
        have hbadstep := attachStep_bad pid children hpv htr hm
        rw [hbadstep] at hstep
        exact Except.noConfusion hstep
      · obtain ⟨fsb', hcellb', hlf'⟩ :=
          attachStep_preserves_field pid children hne hstep hcellb
        exact ih st1 fsb' hmem' hcellb' (hlf'.trans hlfb) st' hall

/-- A normally-returning run carries a heap and a tree value. -/
theorem isOkResult_ok {X : Option (Except String (Heap × JSVal))}
    (hok : isOkResult X = true) : ∃ h' tr, X = some (.ok (h', tr)) := by
  cases X with
  | none => exact Bool.noConfusion hok
  | some e =>
    cases e with
    | error e => exact Bool.noConfusion hok
    | ok p => exact ⟨p.1, p.2, rfl⟩

/-- Claim C5: a record whose parent-key value is truthy (here: a truthy
primitive) but equal to no record's id-key value makes `arrayToTree`
fault — the run never returns a tree (the missing parent, looked up as
`undefined`, is dereferenced), instead of silently dropping the record. -/
theorem arrayToTree_missing_parent_faults (fuel : Nat) (h : Heap) (ra : Nat)
    (rs : List JSVal) (id pid children : String) (pvb : JSVal)
    (hne : pid ≠ children)
    (hcellArr : h[ra]? = some (.arr rs))
    (hrecs : ∀ rec ∈ rs, ∃ i fs, rec = .ref i ∧ h[i]? = some (.obj fs))
    (hprim : isPrim pvb = true) (htr : truthy pvb = true)
    (hbad : ∃ i fs, .ref i ∈ rs ∧ h[i]? = some (.obj fs) ∧
      lookupField fs pid = some pvb)
    (hnoid : ∀ i fs, .ref i ∈ rs → h[i]? = some (.obj fs) →
      ∀ v, lookupField fs id = some v → v ≠ pvb) :
    isOkResult (arrayToTree fuel h (.ref ra) id pid children) = false := by
  by_contra hne0
  have hok : isOkResult (arrayToTree fuel h (.ref ra) id pid children) = true := by
    cases hbv : isOkResult (arrayToTree fuel h (.ref ra) id pid children) with
    | false => exact absurd hbv hne0
    | true => rfl
  obtain ⟨h', tr, hrun⟩ := isOkResult_ok hok
  rw [arrayToTree] at hrun
  split at hrun
  · exact Option.noConfusion hrun
  · rename_i h1 data hcl
    split at hrun
    · exact Except.noConfusion (Option.some.inj hrun)
    · rename_i items hel
      split at hrun
      · exact Except.noConfusion (Option.some.inj hrun)
      · rename_i idMap hbim
        split at hrun
        · exact Except.noConfusion (Option.some.inj hrun)
        · rename_i h2 tree hall
          cases fuel with
          | zero => simp [deepCloneFuel] at hcl
          | succ m =>
            rw [deepCloneFuel] at hcl
            have hcl2 : (match h[ra]? with
                | some (HObj.arr es) =>
                  (match cloneListWith (deepCloneFuel m) h es with
                    | some (h1, es') =>
                      some (h1 ++ [HObj.arr es'], JSVal.ref h1.length)
                    | none => none)
                | some (HObj.obj fs) =>
                  (match cloneFieldsWith (deepCloneFuel m) h fs with
                    | some (h1, fs') =>
                      some (h1 ++ [HObj.obj fs'], JSVal.ref h1.length)
                    | none => none)
                | none => (none : Option (Heap × JSVal))) = some (h1, data) := hcl
            rw [hcellArr] at hcl2
            have hcl3 : (match cloneListWith (deepCloneFuel m) h rs with
                | some (h1, es') => some (h1 ++ [HObj.arr es'], JSVal.ref h1.length)
                | none => (none : Option (Heap × JSVal))) = some (h1, data) := hcl2
            cases hcls : cloneListWith (deepCloneFuel m) h rs with
            | none =>
              rw [hcls] at hcl3
              exact Option.noConfusion hcl3
            | some res =>
              obtain ⟨hq, items0⟩ := res
              rw [hcls] at hcl3
              have hcl4 : (some (hq ++ [HObj.arr items0], JSVal.ref hq.length) :
                  Option (Heap × JSVal)) = some (h1, data) := hcl3
              simp only [Option.some.injEq, Prod.mk.injEq] at hcl4
              obtain ⟨rfl, rfl⟩ := hcl4
              obtain ⟨rd, hdata, hcell⟩ := getElems_ok hel
              have hrd := JSVal.ref.inj hdata
              subst hrd
              rw [List.getElem?_concat_length] at hcell
              have hite := (HObj.arr.inj (Option.some.inj hcell)).symm
              subst hite
              obtain ⟨-, hfa⟩ := (clonePrim_sound m).2.1 h rs hq items hcls
              obtain ⟨ib, fsb, hibmem, hibcell, hlfb⟩ := hbad
              obtain ⟨itb, hitb, hrelb⟩ := forall2_mem_left hfa (.ref ib) hibmem
              obtain ⟨ibc, hitbeq, hcellmap⟩ := hrelb.2 ib rfl
              obtain ⟨fsb', hcellb', hfrb⟩ := hcellmap fsb hibcell
              obtain ⟨pv', hpv', hpprim, -⟩ := (FieldRel_lookup hfrb pid).2 pvb hlfb
              have hpveq : pv' = pvb := hpprim hprim
              rw [hpveq] at hpv'
              have hcellb1 : (hq ++ [HObj.arr items])[ibc]? = some (.obj fsb') :=
                getElem?_mono_append [HObj.arr items] hcellb'
              have hkeys : ∀ kv ∈ idMap, kv.1 ≠ pvb := by
                intro kv hkv
                rcases buildIdMap_keys (hq ++ [HObj.arr items]) id items [] idMap
                    hbim kv hkv with ⟨kv0, hkv0, -⟩ | ⟨it2, hit2, hgot⟩
                · exact absurd hkv0 (List.not_mem_nil kv0)
                · obtain ⟨rec, hrec, hrel2⟩ := forall2_mem_right hfa it2 hit2
                  obtain ⟨i2, fs2, hreceq, hcell2⟩ := hrecs rec hrec
                  obtain ⟨j2, hit2eq, hcmap2⟩ := hrel2.2 i2 hreceq
                  obtain ⟨fs2', hcell2', hfr2⟩ := hcmap2 fs2 hcell2
                  have hcell2b : (hq ++ [HObj.arr items])[j2]? = some (.obj fs2') :=
                    getElem?_mono_append [HObj.arr items] hcell2'
                  have hgp : getProp (hq ++ [HObj.arr items]) it2 id =
                      .ok ((lookupField fs2' id).getD .undefined) := by
                    rw [hit2eq]
                    exact getProp_obj id hcell2b
                  rw [hgp] at hgot
                  have hkeq := Except.ok.inj hgot
                  intro hcontra
                  rw [hcontra] at hkeq
                  cases hlk : lookupField fs2' id with
                  | none =>
                    rw [hlk] at hkeq
                    rw [← hkeq] at htr
                    exact Bool.noConfusion htr
                  | some v2' =>
                    rw [hlk] at hkeq
                    simp only [Option.getD_some] at hkeq
                    cases hlk0 : lookupField fs2 id with
                    | none =>
                      rw [(FieldRel_lookup hfr2 id).1 hlk0] at hlk
                      exact Option.noConfusion hlk
                    | some v2 =>
                      obtain ⟨v2'', hv2'', hpeq, hnoneq⟩ :=
                        (FieldRel_lookup hfr2 id).2 v2 hlk0
                      rw [hlk] at hv2''
                      have hveq := Option.some.inj hv2''
                      subst hveq
                      by_cases hp2 : isPrim v2 = true
                      · have hv2ne := hnoid i2 fs2 (hreceq ▸ hrec) hcell2 v2 hlk0
                        exact hv2ne (by rw [← hpeq hp2, hkeq])
                      · have hf2 : isPrim v2 = false := by
                          cases hb2 : isPrim v2 with
                          | true => exact absurd hb2 hp2
                          | false => rfl
                        have hnp := hnoneq hf2
                        rw [hkeq, hprim] at hnp
                        exact Bool.noConfusion hnp
              have hmundef : mapGet idMap pvb = .undefined :=
                mapGet_no_key idMap pvb hkeys
              have hibmem2 : JSVal.ref ibc ∈ items := by
                rw [← hitbeq]
                exact hitb
              exact absurd hall (attachAll_bad_not_ok pid children hne htr hmundef
                items (hq ++ [HObj.arr items], []) fsb' hibmem2 hcellb1 hpv'
                (h2, tree))

/-- Input for the C5 witness: one record `{id:1, pid:7}` whose truthy
parent key 7 matches no record's id. -/
def wbadH : Heap := [.obj [("id", .num 1), ("pid", .num 7)], .arr [.ref 0]]

/-- Witness for `arrayToTree_missing_parent_faults`: the concrete run on
`wbadH` throws the dereference `TypeError` and returns no tree. -/
theorem arrayToTree_missing_parent_faults_witness :
    arrayToTree 10 wbadH (.ref 1) "id" "pid" "children" =
      some (.error "TypeError: Cannot read properties of undefined") ∧
    isOkResult (arrayToTree 10 wbadH (.ref 1) "id" "pid" "children") = false := by
  refine ⟨rfl, ?_⟩
  refine arrayToTree_missing_parent_faults 10 wbadH 1 [.ref 0] "id" "pid" "children"
    (.num 7) (by decide) rfl ?_ rfl (by decide) ?_ ?_
  · intro rec hrec
    rcases List.mem_singleton.mp hrec with rfl
    exact ⟨0, [("id", .num 1), ("pid", .num 7)], rfl, rfl⟩
  · exact ⟨0, [("id", .num 1), ("pid", .num 7)], List.mem_singleton.mpr rfl, rfl, rfl⟩
  · intro i fs hmem hcelli v hlv
    have hieq : JSVal.ref i = JSVal.ref 0 := List.mem_singleton.mp hmem
    have hi0 := JSVal.ref.inj hieq
    subst hi0
    have hfs := HObj.obj.inj (Option.some.inj hcelli)
    rw [← hfs] at hlv
    have hv1 : some (JSVal.num 1) = some v := hlv
    rw [← Option.some.inj hv1]
    decide

/-- Counterexample input to claim C4 as stated: the two records satisfy
the claim's hypothesis (each parent-key value is falsy or equal to some
record's id-key value: pid 0 is falsy, pid 1 equals the first record's
id), but the first record carries a pre-existing truthy non-array
`children` value. -/
def hCtr : Heap :=
  [.obj [("id", .num 1), ("pid", .num 0), ("children", .num 5)],
   .obj [("id", .num 2), ("pid", .num 1)],
   .arr [.ref 0, .ref 1]]

/-- Counterexample to claim C4 as stated: on `hCtr` the attach step finds
the parent's `children` value 5 truthy, skips the array creation, and
calls `.push` on the number — `arrayToTree` throws instead of returning
the root sequence the claim promises. -/
theorem arrayToTree_truthy_children_throws :
    arrayToTree 10 hCtr (.ref 2) "id" "pid" "children" =
      some (.error "TypeError: push is not a function") ∧
    isOkResult (arrayToTree 10 hCtr (.ref 2) "id" "pid" "children") = false :=
  ⟨rfl, rfl⟩

/-- `attachToParent` on a parent object whose children field is falsy:
allocate a fresh one-element array and point the parent at it. -/
theorem attachToParent_create (children : String) {H : Heap} {rp : Nat}
    {fs : List (String × JSVal)} (it : JSVal)
    (hcell : H[rp]? = some (.obj fs))
    (hfal : truthy ((lookupField fs children).getD .undefined) = false) :
    attachToParent children H (.ref rp) it =
      .ok (((H ++ [HObj.arr []]).set rp
        (HObj.obj (setField fs children (JSVal.ref H.length)))).set H.length
        (HObj.arr [it])) := by
  rw [attachToParent, getProp_obj children hcell]
  simp only [Except.bind_ok_left]
  rw [if_pos hfal, setProp_obj children (JSVal.ref H.length)
    (getElem?_mono_append [HObj.arr []] hcell)]
  simp only [Except.bind_ok_left]
  have hrp : rp < H.length := (List.getElem?_eq_some.mp hcell).1
  have hcell2 : (((H ++ [HObj.arr []]).set rp
      (HObj.obj (setField fs children (JSVal.ref H.length))))[rp]?) =
      some (HObj.obj (setField fs children (JSVal.ref H.length))) :=
    List.getElem?_set_self (by
      simp only [List.length_append, List.length_singleton]
      omega)
  rw [getProp_obj children hcell2, lookupField_setField_self]
  simp only [Except.bind_ok_left, Option.getD_some]
  have hlen : (((H ++ [HObj.arr []]).set rp
      (HObj.obj (setField fs children (JSVal.ref H.length))))[H.length]?) =
      some (HObj.arr ([] : List JSVal)) := by
    rw [List.getElem?_set_ne (by omega), List.getElem?_concat_length]
  rw [pushElem_arrCell it hlen]
  rfl

/-- `attachToParent` on a parent object whose children field already
holds an array: push the record onto it. -/
theorem attachToParent_push (children : String) {H : Heap} {rp rc : Nat}
    {fs : List (String × JSVal)} {es0 : List JSVal} (it : JSVal)
    (hcell : H[rp]? = some (.obj fs))
    (hlf : lookupField fs children = some (.ref rc))
    (hc2 : H[rc]? = some (.arr es0)) :
    attachToParent children H (.ref rp) it = .ok (H.set rc (.arr (es0 ++ [it]))) := by
  rw [attachToParent, getProp_obj children hcell, hlf]
  simp only [Except.bind_ok_left, Option.getD_some]
  rw [if_neg (by simp [truthy])]
  simp only [Except.bind_ok_left]
  rw [getProp_obj children hcell, hlf]
  simp only [Except.bind_ok_left, Option.getD_some]
  rw [pushElem_arrCell it hc2]

/-- `attachStep` on a record with a falsy parent-key value: push it onto
the root list. -/
theorem attachStep_root (pid children : String) (idMap : List (JSVal × JSVal))
    {st : Heap × List JSVal} {it pv : JSVal}
    (hpv : getProp st.1 it pid = .ok pv) (hfal : truthy pv = false) :
    attachStep pid children idMap st it = .ok (st.1, st.2 ++ [it]) := by
  rw [attachStep, hpv]
  simp only [Except.bind_ok_left]
  rw [if_pos hfal]

/-- `attachStep` on a record with a truthy parent-key value: attach it to
the looked-up parent. -/
theorem attachStep_attach (pid children : String) (idMap : List (JSVal × JSVal))
    {st : Heap × List JSVal} {it pv : JSVal} {H3 : Heap}
    (hpv : getProp st.1 it pid = .ok pv) (htru : truthy pv = true)
    (hat : attachToParent children st.1 (mapGet idMap pv) it = .ok H3) :
    attachStep pid children idMap st it = .ok (H3, st.2) := by
  rw [attachStep, hpv]
  simp only [Except.bind_ok_left]
  rw [if_neg (by simp [htru]), hat]
  simp only [Except.bind_ok_left]

/-- `attachAll` steps through a successful head step. -/
theorem attachAll_cons (pid children : String) (idMap : List (JSVal × JSVal))
    {st st1 : Heap × List JSVal} {it : JSVal} (rest : List JSVal)
    (hstep : attachStep pid children idMap st it = .ok st1) :
    attachAll pid children idMap (it :: rest) st =
      attachAll pid children idMap rest st1 := by
  simp only [attachAll]
  rw [hstep]

/-- Keys not assigned by any iterated record read back unchanged from the
id index. -/
theorem buildIdMap_get_skip (h : Heap) (id : String) (p : JSVal) :
    ∀ (items : List JSVal) (m M : List (JSVal × JSVal)),
      buildIdMap h id items m = .ok M →
      (∀ it ∈ items, ∀ q, getProp h it id = .ok q → q ≠ p) →
      mapGet M p = mapGet m p := by
  intro items
  induction items with
  | nil =>
    intro m M hb _
    simp only [buildIdMap] at hb
    rw [← Except.ok.inj hb]
  | cons it rest ih =>
    intro m M hb hno
    simp only [buildIdMap] at hb
    cases hg : getProp h it id with
    | error e =>
      rw [hg] at hb
      exact Except.noConfusion hb
    | ok k =>
      rw [hg] at hb
      rw [ih (mapSet m k it) M hb (fun y hy q hq => hno y (by simp [hy]) q hq),
        mapGet_mapSet, if_neg (hno it (by simp) k hg)]

/-- With pairwise-distinct id keys, the id index maps record `j`'s id to
record `j` itself. -/
theorem buildIdMap_get_unique (h : Heap) (id : String) :
    ∀ (items : List JSVal) (m M : List (JSVal × JSVal)) (j : Nat)
      (hj : j < items.length) (p : JSVal),
      buildIdMap h id items m = .ok M →
      getProp h (items.get ⟨j, hj⟩) id = .ok p →
      (∀ k (hk : k < items.length), k ≠ j →
        ∀ q, getProp h (items.get ⟨k, hk⟩) id = .ok q → q ≠ p) →
      mapGet M p = items.get ⟨j, hj⟩ := by
  intro items
  induction items with
  | nil =>
    intro m M j hj
    simp at hj
  | cons it rest ih =>
    intro m M j hj p hb hgj hothers
    simp only [buildIdMap] at hb
    cases hg : getProp h it id with
    | error e =>
      rw [hg] at hb
      exact Except.noConfusion hb
    | ok k =>
      rw [hg] at hb
      cases j with
      | zero =>
        have hkp : k = p := by
          have hgj0 : getProp h it id = .ok p := hgj
          rw [hg] at hgj0
          exact Except.ok.inj hgj0
        subst hkp
        have hskip : mapGet M k = mapGet (mapSet m k it) k := by
          refine buildIdMap_get_skip h id k rest (mapSet m k it) M hb ?_
          intro y hy q hq
          obtain ⟨i, hi, hyi⟩ := List.getElem_of_mem hy
          refine hothers (i + 1) (by simpa using Nat.succ_lt_succ hi) (by omega) q ?_
          show getProp h (rest.get ⟨i, hi⟩) id = .ok q
          have hyi2 : rest.get ⟨i, hi⟩ = y := hyi
          rw [hyi2]
          exact hq
        rw [hskip, mapGet_mapSet, if_pos rfl]
        rfl
      | succ j0 =>
        have hj0 : j0 < rest.length := by
          simp only [List.length_cons] at hj
          omega
        show mapGet M p = rest.get ⟨j0, hj0⟩
        refine ih (mapSet m k it) M j0 hj0 p hb hgj ?_
        intro k0 hk0 hkj q hq
        exact hothers (k0 + 1) (by simpa using Nat.succ_lt_succ hk0) (by omega) q hq

/-- Indices (in input order) of the records attached as children of
record `j`: those before `t` with a truthy parent-key value equal to
`j`'s id-key value. -/
def kidsL (P I : Nat → JSVal) (t j : Nat) : List Nat :=
  (List.range t).filter (fun k => truthy (P k) && decide (P k = I j))

/-- Indices (in input order) of the records pushed to the root list:
those before `t` with a falsy parent-key value. -/
def rootsL (P : Nat → JSVal) (t : Nat) : List Nat :=
  (List.range t).filter (fun k => !truthy (P k))

/-- One step of the children index. -/
theorem kidsL_succ (P I : Nat → JSVal) (t j : Nat) :
    kidsL P I (t + 1) j = kidsL P I t j ++
      (if (truthy (P t) && decide (P t = I j)) = true then [t] else []) := by
  rw [kidsL, kidsL, List.range_succ, List.filter_append]
  congr 1
  cases hp : (truthy (P t) && decide (P t = I j)) with
  | true => simp [List.filter, hp]
  | false => simp [List.filter, hp]

/-- One step of the root index. -/
theorem rootsL_succ (P : Nat → JSVal) (t : Nat) :
    rootsL P (t + 1) = rootsL P t ++ (if truthy (P t) = false then [t] else []) := by
  rw [rootsL, rootsL, List.range_succ, List.filter_append]
  congr 1
  cases hp : truthy (P t) with
  | true => simp [List.filter, hp]
  | false => simp [List.filter, hp]

/-- Invariant of phase 2 after `t` records: the heap keeps its first `b`
cells plus one clone cell per record — carrying the created children
array of record `j` exactly when `j` already has attached children — and
the root list holds the falsy-parent records in input order. -/
def attachInv (children : String) (b : Nat) (N : Nat) (c : Nat → Nat)
    (g : Nat → List (String × JSVal)) (I P : Nat → JSVal) (f : Nat → JSVal)
    (t : Nat) (H : Heap) (roots : List JSVal) : Prop :=
  b ≤ H.length ∧
  roots = (rootsL P t).map f ∧
  ∃ A : Nat → Nat,
    (∀ j, j < N →
      (kidsL P I t j = [] → H[c j]? = some (.obj (g j))) ∧
      (kidsL P I t j ≠ [] →
        H[c j]? = some (.obj (setField (g j) children (.ref (A j)))) ∧
        b ≤ A j ∧ A j < H.length ∧
        H[A j]? = some (.arr ((kidsL P I t j).map f)))) ∧
    (∀ j1 j2, j1 < N → j2 < N → kidsL P I t j1 ≠ [] → kidsL P I t j2 ≠ [] →
      A j1 = A j2 → j1 = j2)

/-- Phase 2 of `arrayToTree` on well-formed cloned records builds the
children arrays and root list described by `attachInv`: induction on the
remaining records. -/
theorem attachAll_build (pid children : String) (hpc : pid ≠ children)
    (idMap : List (JSVal × JSVal)) (items : List JSVal) (N : Nat)
    (hN : N = items.length) (b : Nat) (c : Nat → Nat)
    (g : Nat → List (String × JSVal)) (I P : Nat → JSVal) (f : Nat → JSVal)
    (hfd : ∀ k, k < N → items.getD k .undefined = f k)
    (hfr : ∀ k, k < N → f k = .ref (c k))
    (hcb : ∀ k, k < N → c k < b)
    (hcinj : ∀ k1 k2, k1 < N → k2 < N → c k1 = c k2 → k1 = k2)
    (hIuniq : ∀ k1 k2, k1 < N → k2 < N → I k1 = I k2 → k1 = k2)
    (hmg : ∀ k, k < N → truthy (P k) = true →
      ∃ j, j < N ∧ I j = P k ∧ mapGet idMap (P k) = .ref (c j))
    (hgpid : ∀ k, k < N → (lookupField (g k) pid).getD .undefined = P k)
    (hgch : ∀ k, k < N → lookupField (g k) children = none) :
    ∀ (rem t : Nat) (H : Heap) (roots : List JSVal),
      t + rem = N →
      attachInv children b N c g I P f t H roots →
      ∃ H' roots',
        attachAll pid children idMap (items.drop t) (H, roots) = .ok (H', roots') ∧
        attachInv children b N c g I P f N H' roots' := by
  intro rem
  induction rem with
  | zero =>
    intro t H roots ht hinv
    have ht' : t = N := by omega
    subst ht'
    have hdrop : items.drop t = [] := List.drop_eq_nil_of_le (by omega)
    rw [hdrop]
    exact ⟨H, roots, rfl, hinv⟩
  | succ rem ih =>
    intro t H roots ht hinv
    have htN : t < N := by omega
    have htl : t < items.length := by omega
    have hdrop : items.drop t = f t :: items.drop (t + 1) := by
      rw [List.drop_eq_getElem_cons htl]
      congr 1
      rw [← hfd t htN]
      exact (List.getD_eq_getElem items .undefined htl).symm
    obtain ⟨hlen, hroots, A, hcells, hAinj⟩ := hinv
    have hcellt : ∃ fst, H[c t]? = some (HObj.obj fst) ∧
        (lookupField fst pid).getD .undefined = P t := by
      by_cases hk : kidsL P I t t = []
      · exact ⟨g t, (hcells t htN).1 hk, hgpid t htN⟩
      · obtain ⟨hcell, -, -, -⟩ := (hcells t htN).2 hk
        refine ⟨setField (g t) children (.ref (A t)), hcell, ?_⟩
        rw [lookupField_setField_ne (g t) children _ pid hpc]
        exact hgpid t htN
    obtain ⟨fst, hcellt, hpidt⟩ := hcellt
    have hpv : getProp H (f t) pid = .ok (P t) := by
      rw [hfr t htN, getProp_obj pid hcellt, hpidt]
    rw [hdrop]
    by_cases htru : truthy (P t) = true
    · obtain ⟨j, hjN, hIjP, hmgt⟩ := hmg t htN htru
      have hkstep : ∀ j0, j0 < N → kidsL P I (t + 1) j0 =
          kidsL P I t j0 ++ (if j0 = j then [t] else []) := by
        intro j0 hj0
        rw [kidsL_succ]
        congr 1
        by_cases hj0j : j0 = j
        · subst hj0j
          rw [if_pos rfl, if_pos]
          rw [htru, hIjP]
          simp
        · rw [if_neg hj0j, if_neg]
          intro hcon
          rw [Bool.and_eq_true] at hcon
          have hPI : P t = I j0 := of_decide_eq_true hcon.2
          have hII : I j0 = I j := by
            rw [← hPI, hIjP]
          exact hj0j (hIuniq j0 j hj0 hjN hII)
      have hroots' : roots = (rootsL P (t + 1)).map f := by
        rw [rootsL_succ, if_neg (by simp [htru]), List.append_nil]
        exact hroots
      by_cases hkj : kidsL P I t j = []
      · -- create a fresh children array for parent j
        have hcellj : H[c j]? = some (HObj.obj (g j)) := (hcells j hjN).1 hkj
        have hfalj : truthy ((lookupField (g j) children).getD .undefined) = false := by
          rw [hgch j hjN]
          rfl
        have hat := attachToParent_create children (f t) hcellj hfalj
        rw [← hmgt] at hat
        have hstep : attachStep pid children idMap (H, roots) (f t) =
            .ok (((H ++ [HObj.arr []]).set (c j)
              (HObj.obj (setField (g j) children (JSVal.ref H.length)))).set H.length
              (HObj.arr [f t]), roots) :=
          attachStep_attach pid children idMap hpv htru hat
        rw [attachAll_cons pid children idMap (items.drop (t + 1)) hstep]
        have hreadN : ∀ r, r < H.length → r ≠ c j →
            ((((H ++ [HObj.arr []]).set (c j)
              (HObj.obj (setField (g j) children (JSVal.ref H.length)))).set H.length
              (HObj.arr [f t]))[r]?) = H[r]? := by
          intro r hr hnecj
          rw [List.getElem?_set_ne (by omega),
            List.getElem?_set_ne (fun hh => hnecj hh.symm),
            List.getElem?_append_left hr]
        have hreadC : ((((H ++ [HObj.arr []]).set (c j)
            (HObj.obj (setField (g j) children (JSVal.ref H.length)))).set H.length
            (HObj.arr [f t]))[c j]?) =
            some (HObj.obj (setField (g j) children (JSVal.ref H.length))) := by
          have hcjb := hcb j hjN
          rw [List.getElem?_set_ne (by omega),
            List.getElem?_set_self (by
              simp only [List.length_append, List.length_singleton]
              omega)]
        have hreadL : ((((H ++ [HObj.arr []]).set (c j)
            (HObj.obj (setField (g j) children (JSVal.ref H.length)))).set H.length
            (HObj.arr [f t]))[H.length]?) = some (HObj.arr [f t]) :=
          List.getElem?_set_self (by
            simp only [List.length_set, List.length_append, List.length_singleton]
            omega)
        refine ih (t + 1) _ roots (by omega) ⟨?_, hroots', ?_⟩
        · simp only [List.length_set, List.length_append, List.length_singleton]
          omega
        · let A' : Nat → Nat := fun j0 => if j0 = j then H.length else A j0
          have hA'j : A' j = H.length := if_pos rfl
          have hA'ne : ∀ j0, j0 ≠ j → A' j0 = A j0 := fun j0 hne => if_neg hne
          refine ⟨A', ?_, ?_⟩
          · intro j0 hj0
            constructor
            · intro hkid0
              rw [hkstep j0 hj0] at hkid0
              by_cases hj0j : j0 = j
              · subst hj0j
                rw [if_pos rfl] at hkid0
                simp at hkid0
              · rw [if_neg hj0j, List.append_nil] at hkid0
                rw [hreadN (c j0) (by have := hcb j0 hj0; omega)
                  (fun hh => hj0j (hcinj j0 j hj0 hjN hh))]
                exact (hcells j0 hj0).1 hkid0
            · intro hkid0
              by_cases hj0j : j0 = j
              · subst hj0j
                rw [hkstep j0 hj0, if_pos rfl, hkj, hA'j]
                refine ⟨hreadC, by omega, ?_, ?_⟩
                · simp only [List.length_set, List.length_append, List.length_singleton]
                  omega
                · exact hreadL
              · rw [hkstep j0 hj0, if_neg hj0j, List.append_nil] at hkid0 ⊢
                rw [hA'ne j0 hj0j]
                obtain ⟨hcell0, hAb0, hAlt0, hArr0⟩ := (hcells j0 hj0).2 hkid0
                refine ⟨?_, hAb0, by
                  simp only [List.length_set, List.length_append, List.length_singleton]
                  omega, ?_⟩
                · rw [hreadN (c j0) (by have := hcb j0 hj0; omega)
                    (fun hh => hj0j (hcinj j0 j hj0 hjN hh))]
                  exact hcell0
                · rw [hreadN (A j0) hAlt0 (by have := hcb j hjN; omega)]
                  exact hArr0
          · intro j1 j2 h1N h2N hk1 hk2 hAeq
            by_cases hj1 : j1 = j
            · by_cases hj2 : j2 = j
              · rw [hj1, hj2]
              · rw [hj1, hA'j, hA'ne j2 hj2] at hAeq
                rw [hkstep j2 h2N, if_neg hj2, List.append_nil] at hk2
                obtain ⟨-, -, hAlt2, -⟩ := (hcells j2 h2N).2 hk2
                omega
            · by_cases hj2 : j2 = j
              · rw [hj2, hA'j, hA'ne j1 hj1] at hAeq
                rw [hkstep j1 h1N, if_neg hj1, List.append_nil] at hk1
                obtain ⟨-, -, hAlt1, -⟩ := (hcells j1 h1N).2 hk1
                omega
              · rw [hA'ne j1 hj1, hA'ne j2 hj2] at hAeq
                rw [hkstep j1 h1N, if_neg hj1, List.append_nil] at hk1
                rw [hkstep j2 h2N, if_neg hj2, List.append_nil] at hk2
                exact hAinj j1 j2 h1N h2N hk1 hk2 hAeq
      · -- push onto parent j's existing children array
        obtain ⟨hcellj, hAbj, hAltj, hArrj⟩ := (hcells j hjN).2 hkj
        have hat := attachToParent_push children (f t) hcellj
          (lookupField_setField_self (g j) children (JSVal.ref (A j))) hArrj
        rw [← hmgt] at hat
        have hstep : attachStep pid children idMap (H, roots) (f t) =
            .ok (H.set (A j) (HObj.arr ((kidsL P I t j).map f ++ [f t])), roots) :=
          attachStep_attach pid children idMap hpv htru hat
        rw [attachAll_cons pid children idMap (items.drop (t + 1)) hstep]
        have hreadN : ∀ r, r ≠ A j →
            ((H.set (A j) (HObj.arr ((kidsL P I t j).map f ++ [f t])))[r]?) = H[r]? := by
          intro r hner
          rw [List.getElem?_set_ne (fun hh => hner hh.symm)]
        have hreadA : ((H.set (A j)
            (HObj.arr ((kidsL P I t j).map f ++ [f t])))[A j]?) =
            some (HObj.arr ((kidsL P I t j).map f ++ [f t])) :=
          List.getElem?_set_self hAltj
        refine ih (t + 1) _ roots (by omega) ⟨?_, hroots', ?_⟩
        · simp only [List.length_set]
          omega
        · refine ⟨A, ?_, ?_⟩
          · intro j0 hj0
            constructor
            · intro hkid0
              rw [hkstep j0 hj0] at hkid0
              by_cases hj0j : j0 = j
              · subst hj0j
                rw [if_pos rfl] at hkid0
                simp at hkid0
              · rw [if_neg hj0j, List.append_nil] at hkid0
                rw [hreadN (c j0) (by have := hcb j0 hj0; omega)]
                exact (hcells j0 hj0).1 hkid0
            · intro hkid0
              by_cases hj0j : j0 = j
              · subst hj0j
                rw [hkstep j0 hj0, if_pos rfl]
                refine ⟨?_, hAbj, by simp only [List.length_set]; omega, ?_⟩
                · rw [hreadN (c j0) (by have := hcb j0 hj0; omega)]
                  exact hcellj
                · rw [hreadA, List.map_append]
                  rfl
              · rw [hkstep j0 hj0, if_neg hj0j, List.append_nil] at hkid0 ⊢
                obtain ⟨hcell0, hAb0, hAlt0, hArr0⟩ := (hcells j0 hj0).2 hkid0
                refine ⟨?_, hAb0, by simp only [List.length_set]; omega, ?_⟩
                · rw [hreadN (c j0) (by have := hcb j0 hj0; omega)]
                  exact hcell0
                · rw [hreadN (A j0)
                    (fun hh => hj0j (hAinj j0 j hj0 hjN hkid0 hkj hh))]
                  exact hArr0
          · intro j1 j2 h1N h2N hk1 hk2 hAeq
            have hk1' : kidsL P I t j1 ≠ [] := by
              by_cases hj1 : j1 = j
              · rw [hj1]
                exact hkj
              · rw [hkstep j1 h1N, if_neg hj1, List.append_nil] at hk1
                exact hk1
            have hk2' : kidsL P I t j2 ≠ [] := by
              by_cases hj2 : j2 = j
              · rw [hj2]
                exact hkj
              · rw [hkstep j2 h2N, if_neg hj2, List.append_nil] at hk2
                exact hk2
            exact hAinj j1 j2 h1N h2N hk1' hk2' hAeq
    · -- falsy parent key: push to the root list
      have hfal : truthy (P t) = false := by
        cases hb2 : truthy (P t) with
        | true => exact absurd hb2 htru
        | false => rfl
      have hkroot : ∀ j0, kidsL P I (t + 1) j0 = kidsL P I t j0 := by
        intro j0
        rw [kidsL_succ, if_neg, List.append_nil]
        intro hcon
        rw [Bool.and_eq_true] at hcon
        have hc1 := hcon.1
        rw [hc1] at hfal
        exact Bool.noConfusion hfal
      have hstep : attachStep pid children idMap (H, roots) (f t) =
          .ok (H, roots ++ [f t]) :=
        attachStep_root pid children idMap hpv hfal
      rw [attachAll_cons pid children idMap (items.drop (t + 1)) hstep]
      refine ih (t + 1) H (roots ++ [f t]) (by omega) ⟨hlen, ?_, ?_⟩
      · rw [rootsL_succ, if_pos hfal, List.map_append, hroots]
        rfl
      · refine ⟨A, ?_, ?_⟩
        · intro j0 hj0
          rw [hkroot j0]
          exact hcells j0 hj0
        · intro j1 j2 h1N h2N hk1 hk2 hAeq
          rw [hkroot j1] at hk1
          rw [hkroot j2] at hk2
          exact hAinj j1 j2 h1N h2N hk1 hk2 hAeq

/-- `arrayToTree` assembled from the outcomes of its four phases. -/
theorem arrayToTree_eq (fuel : Nat) (h : Heap) (arr : JSVal)
    (id pid children : String) {h1 : Heap} {data : JSVal} {items : List JSVal}
    {idMap : List (JSVal × JSVal)} {H' : Heap} {roots' : List JSVal}
    (hcl : deepCloneFuel fuel h arr = some (h1, data))
    (hel : getElems h1 data = .ok items)
    (hbm : buildIdMap h1 id items [] = .ok idMap)
    (hall : attachAll pid children idMap items (h1, []) = .ok (H', roots')) :
    arrayToTree fuel h arr id pid children =
      some (.ok (H' ++ [.arr roots'], .ref H'.length)) := by
  rw [arrayToTree, hcl]
  show (match getElems h1 data with
    | Except.error e => some (Except.error e)
    | Except.ok items0 =>
      match buildIdMap h1 id items0 [] with
      | Except.error e => some (Except.error e)
      | Except.ok idMap0 =>
        match attachAll pid children idMap0 items0 (h1, []) with
        | Except.error e => some (Except.error e)
        | Except.ok (h2, tree) =>
          some (Except.ok ((allocCell h2 (HObj.arr tree)).1,
            (allocCell h2 (HObj.arr tree)).2))) =
    some (Except.ok (H' ++ [HObj.arr roots'], JSVal.ref H'.length))
  rw [hel]
  show (match buildIdMap h1 id items [] with
    | Except.error e => some (Except.error e)
    | Except.ok idMap0 =>
      match attachAll pid children idMap0 items (h1, []) with
      | Except.error e => some (Except.error e)
      | Except.ok (h2, tree) =>
        some (Except.ok ((allocCell h2 (HObj.arr tree)).1,
          (allocCell h2 (HObj.arr tree)).2))) =
    some (Except.ok (H' ++ [HObj.arr roots'], JSVal.ref H'.length))
  rw [hbm]
  show (match attachAll pid children idMap items (h1, []) with
    | Except.error e => some (Except.error e)
    | Except.ok (h2, tree) =>
      some (Except.ok ((allocCell h2 (HObj.arr tree)).1,
        (allocCell h2 (HObj.arr tree)).2))) =
    some (Except.ok (H' ++ [HObj.arr roots'], JSVal.ref H'.length))
  rw [hall]
  rfl

/-- `buildIdMap` returns normally when every record's id field can be
read. -/
theorem buildIdMap_ok (h : Heap) (id : String) :
    ∀ (items : List JSVal) (m : List (JSVal × JSVal)),
      (∀ it ∈ items, ∃ q, getProp h it id = .ok q) →
      ∃ M, buildIdMap h id items m = .ok M := by
  intro items
  induction items with
  | nil =>
    intro m _
    exact ⟨m, rfl⟩
  | cons it rest ih =>
    intro m hall
    obtain ⟨q, hq2⟩ := hall it (by simp)
    obtain ⟨M, hM⟩ := ih (mapSet m q it) (fun y hy => hall y (by simp [hy]))
    refine ⟨M, ?_⟩
    simp only [buildIdMap]
    rw [hq2]
    exact hM

/-- Pointwise access to a `Forall₂` relation. -/
theorem forall2_getElem {α β : Type} {R : α → β → Prop} :
    ∀ {l1 : List α} {l2 : List β}, List.Forall₂ R l1 l2 →
      ∀ i (h1 : i < l1.length) (h2 : i < l2.length),
        R (l1.get ⟨i, h1⟩) (l2.get ⟨i, h2⟩) := by
  intro l1
  induction l1 with
  | nil =>
    intro l2 hf i h1
    exact absurd h1 (by simp)
  | cons x l1 ih =>
    intro l2 hf i h1 h2
    cases hf with
    | cons hxy htail =>
      rename_i y l2'
      cases i with
      | zero => exact hxy
      | succ i0 => exact ih htail i0 (by simpa using h1) (by simpa using h2)

/-- Claim C4 (corrected): on a closed heap of plain records with
primitive pairwise-distinct id values, primitive parent-key values that
are each falsy or equal to some record's id value, no pre-existing
children field, and field names with `pid ≠ children` and
`id ≠ children`, `arrayToTree` returns a tree: the root sequence holds
(the clones of) exactly the falsy-parent records in input order, every
clone still carries its record's id and pid values, and each parent's
children sequence holds exactly the clones of the records whose
parent-key value equals its id value, in input order; parents that gain
no children keep no children field. -/
theorem arrayToTree_builds_tree (fuel : Nat) (h : Heap) (ra : Nat) (rs : List JSVal)
    (id pid children : String) (I P : Nat → JSVal)
    (hpc : pid ≠ children) (hic : id ≠ children)
    (hclosed : heapClosed h = true)
    (hcellArr : h[ra]? = some (.arr rs))
    (hfuel : ∃ hp vp, deepCloneFuel fuel h (.ref ra) = some (hp, vp))
    (hrec : ∀ k, (hk : k < rs.length) → ∃ i fs, rs.get ⟨k, hk⟩ = .ref i ∧
      h[i]? = some (.obj fs) ∧
      (lookupField fs id).getD .undefined = I k ∧
      (lookupField fs pid).getD .undefined = P k ∧
      lookupField fs children = none)
    (hIprim : ∀ k, k < rs.length → isPrim (I k) = true)
    (hPprim : ∀ k, k < rs.length → isPrim (P k) = true)
    (hIuniq : ∀ k1 k2, k1 < rs.length → k2 < rs.length → I k1 = I k2 → k1 = k2)
    (hmatch : ∀ k, k < rs.length → truthy (P k) = true →
      ∃ j, j < rs.length ∧ I j = P k) :
    ∃ (h' : Heap) (rt : Nat) (C : Nat → JSVal),
      arrayToTree fuel h (.ref ra) id pid children = some (.ok (h', .ref rt)) ∧
      h'[rt]? = some (.arr ((rootsL P rs.length).map C)) ∧
      (∀ k, k < rs.length → ∃ ck fsk, C k = .ref ck ∧
        h'[ck]? = some (.obj fsk) ∧
        (lookupField fsk id).getD .undefined = I k ∧
        (lookupField fsk pid).getD .undefined = P k) ∧
      (∀ j, j < rs.length →
        (kidsL P I rs.length j ≠ [] → ∃ cj fsj aj, C j = .ref cj ∧
          h'[cj]? = some (.obj fsj) ∧ lookupField fsj children = some (.ref aj) ∧
          h'[aj]? = some (.arr ((kidsL P I rs.length j).map C))) ∧
        (kidsL P I rs.length j = [] → ∃ cj fsj, C j = .ref cj ∧
          h'[cj]? = some (.obj fsj) ∧ lookupField fsj children = none)) := by
  obtain ⟨hp, vp, hcl0⟩ := hfuel
  cases fuel with
  | zero => simp [deepCloneFuel] at hcl0
  | succ m =>
    have hclKeep := hcl0
    rw [deepCloneFuel] at hcl0
    have hcl2 : (match h[ra]? with
        | some (HObj.arr es) =>
          (match cloneListWith (deepCloneFuel m) h es with
            | some (h1, es') => some (h1 ++ [HObj.arr es'], JSVal.ref h1.length)
            | none => none)
        | some (HObj.obj fs) =>
          (match cloneFieldsWith (deepCloneFuel m) h fs with
            | some (h1, fs') => some (h1 ++ [HObj.obj fs'], JSVal.ref h1.length)
            | none => none)
        | none => (none : Option (Heap × JSVal))) = some (hp, vp) := hcl0
    rw [hcellArr] at hcl2
    have hcl3 : (match cloneListWith (deepCloneFuel m) h rs with
        | some (h1, es') => some (h1 ++ [HObj.arr es'], JSVal.ref h1.length)
        | none => (none : Option (Heap × JSVal))) = some (hp, vp) := hcl2
    cases hcls : cloneListWith (deepCloneFuel m) h rs with
    | none =>
      rw [hcls] at hcl3
      exact Option.noConfusion hcl3
    | some res =>
      obtain ⟨hq, items⟩ := res
      rw [hcls] at hcl3
      have hcl4 : (some (hq ++ [HObj.arr items], JSVal.ref hq.length) :
          Option (Heap × JSVal)) = some (hp, vp) := hcl3
      simp only [Option.some.injEq, Prod.mk.injEq] at hcl4
      obtain ⟨rfl, rfl⟩ := hcl4
      have helts : ∀ e ∈ rs, valLT h.length e = true := by
        have hobj := heapClosed_cell hclosed hcellArr
        simp only [objLT, List.all_eq_true] at hobj
        exact hobj
      obtain ⟨⟨ext1, hqeq, hext1⟩, hcq, hmem1, hpw1, -⟩ :=
        (cloneAll_sound m).2.1 h rs hq items hclosed helts hcls
      have hfa := ((clonePrim_sound m).2.1 h rs hq items hcls).2
      have hNlen : rs.length = items.length := List.Forall₂.length_eq hfa
      choose iF fsF hrs1 hrs2 hrs3 hrs4 hrs5 using hrec
      have hper : ∀ k (hk : k < rs.length), ∃ ck gk,
          items.get ⟨k, by omega⟩ = .ref ck ∧ hq[ck]? = some (.obj gk) ∧
          FieldRel (fsF k hk) gk := by
        intro k hk
        have hrel := forall2_getElem hfa k hk (by omega)
        rw [hrs1 k hk] at hrel
        obtain ⟨rr, hrr, hmapc⟩ := hrel.2 (iF k hk) rfl
        obtain ⟨gk, hcellg, hfrg⟩ := hmapc (fsF k hk) (hrs2 k hk)
        exact ⟨rr, gk, hrr, hcellg, hfrg⟩
      choose cF gF hIt hCl hFR using hper
      let c : Nat → Nat := fun k => if hk : k < rs.length then cF k hk else 0
      let g : Nat → List (String × JSVal) :=
        fun k => if hk : k < rs.length then gF k hk else []
      have hceq : ∀ k (hk : k < rs.length), c k = cF k hk := fun k hk => dif_pos hk
      have hgeq : ∀ k (hk : k < rs.length), g k = gF k hk := fun k hk => dif_pos hk
      let f : Nat → JSVal := fun k => items.getD k JSVal.undefined
      have hfd : ∀ k, k < rs.length → items.getD k JSVal.undefined = f k :=
        fun k hk => rfl
      have hfr : ∀ k, k < rs.length → f k = .ref (c k) := by
        intro k hk
        refine (List.getD_eq_getElem items JSVal.undefined (by omega)).trans
          ((hIt k hk).trans ?_)
        rw [hceq k hk]
      have hcb : ∀ k, k < rs.length → c k < (hq ++ [HObj.arr items]).length := by
        intro k hk
        have hmemk : valLT hq.length (JSVal.ref (cF k hk)) = true := by
          rw [← hIt k hk]
          exact (hmem1 _ (List.get_mem _ _ _)).1
        simp only [valLT, decide_eq_true_eq] at hmemk
        rw [hceq k hk]
        simp only [List.length_append, List.length_singleton]
        omega
      have hcinj : ∀ k1 k2, k1 < rs.length → k2 < rs.length →
          c k1 = c k2 → k1 = k2 := by
        intro k1 k2 hk1 hk2 hceq2
        have hlt2 : ∀ a b (ha : a < rs.length) (hb : b < rs.length),
            a < b → c a < c b := by
          intro a b ha hb hab
          have hR := (List.pairwise_iff_getElem.mp hpw1) a b (by omega) (by omega) hab
          rw [hceq a ha, hceq b hb]
          exact hR (cF a ha) (cF b hb) (hIt a ha) (hIt b hb)
        rcases Nat.lt_trichotomy k1 k2 with hlt12 | heq12 | hgt12
        · have := hlt2 k1 k2 hk1 hk2 hlt12
          omega
        · exact heq12
        · have := hlt2 k2 k1 hk2 hk1 hgt12
          omega
      have hgid : ∀ k (hk : k < rs.length),
          (lookupField (g k) id).getD .undefined = I k := by
        intro k hk
        rw [hgeq k hk]
        cases hlk : lookupField (fsF k hk) id with
        | none =>
          have h3 := hrs3 k hk
          rw [hlk] at h3
          rw [(FieldRel_lookup (hFR k hk) id).1 hlk]
          exact h3
        | some v =>
          have h3 := hrs3 k hk
          rw [hlk] at h3
          simp only [Option.getD_some] at h3
          obtain ⟨v', hv', hp', -⟩ := (FieldRel_lookup (hFR k hk) id).2 v hlk
          have hpv2 : isPrim v = true := by
            rw [h3]
            exact hIprim k hk
          rw [hv', Option.getD_some, hp' hpv2, h3]
      have hgpid2 : ∀ k (hk : k < rs.length),
          (lookupField (g k) pid).getD .undefined = P k := by
        intro k hk
        rw [hgeq k hk]
        cases hlk : lookupField (fsF k hk) pid with
        | none =>
          have h4 := hrs4 k hk
          rw [hlk] at h4
          rw [(FieldRel_lookup (hFR k hk) pid).1 hlk]
          exact h4
        | some v =>
          have h4 := hrs4 k hk
          rw [hlk] at h4
          simp only [Option.getD_some] at h4
          obtain ⟨v', hv', hp', -⟩ := (FieldRel_lookup (hFR k hk) pid).2 v hlk
          have hpv2 : isPrim v = true := by
            rw [h4]
            exact hPprim k hk
          rw [hv', Option.getD_some, hp' hpv2, h4]
      have hgch2 : ∀ k, k < rs.length → lookupField (g k) children = none := by
        intro k hk
        rw [hgeq k hk]
        exact (FieldRel_lookup (hFR k hk) children).1 (hrs5 k hk)
      have hel : getElems (hq ++ [HObj.arr items]) (JSVal.ref hq.length) =
          .ok items := by
        show (match (hq ++ [HObj.arr items])[hq.length]? with
            | some (HObj.arr es) => (Except.ok es : Except String (List JSVal))
            | some (HObj.obj f2) => Except.error "TypeError: forEach is not a function"
            | none => Except.error "invalid reference") = Except.ok items
        rw [List.getElem?_concat_length]
      have hids : ∀ it ∈ items, ∃ q,
          getProp (hq ++ [HObj.arr items]) it id = .ok q := by
        intro it hy
        obtain ⟨k, hk2, hek⟩ := List.getElem_of_mem hy
        have hkr : k < rs.length := by omega
        have hek2 : items.get ⟨k, hk2⟩ = it := hek
        refine ⟨(lookupField (gF k hkr) id).getD .undefined, ?_⟩
        rw [← hek2]
        have hIt2 : items.get ⟨k, hk2⟩ = .ref (cF k hkr) := hIt k hkr
        rw [hIt2]
        exact getProp_obj id (getElem?_mono_append [HObj.arr items] (hCl k hkr))
      obtain ⟨idMap, hbm⟩ := buildIdMap_ok (hq ++ [HObj.arr items]) id items [] hids
      have hmgf : ∀ k, k < rs.length → truthy (P k) = true →
          ∃ j, j < rs.length ∧ I j = P k ∧ mapGet idMap (P k) = .ref (c j) := by
        intro k hk htr2
        obtain ⟨j, hjN, hIj⟩ := hmatch k hk htr2
        refine ⟨j, hjN, hIj, ?_⟩
        have hj2 : j < items.length := by omega
        have hItj : items.get ⟨j, hj2⟩ = .ref (cF j hjN) := hIt j hjN
        have hget : mapGet idMap (P k) = items.get ⟨j, hj2⟩ := by
          refine buildIdMap_get_unique (hq ++ [HObj.arr items]) id items [] idMap
            j hj2 (P k) hbm ?_ ?_
          · rw [hItj,
              getProp_obj id (getElem?_mono_append [HObj.arr items] (hCl j hjN))]
            have hgj := hgid j hjN
            rw [hgeq j hjN] at hgj
            rw [hgj, hIj]
          · intro k0 hk0 hk0j q hq2
            have hk0r : k0 < rs.length := by omega
            have hItk0 : items.get ⟨k0, hk0⟩ = .ref (cF k0 hk0r) := hIt k0 hk0r
            rw [hItk0, getProp_obj id
              (getElem?_mono_append [HObj.arr items] (hCl k0 hk0r))] at hq2
            have hgk0 := hgid k0 hk0r
            rw [hgeq k0 hk0r] at hgk0
            rw [hgk0] at hq2
            have hqI := Except.ok.inj hq2
            intro hcon
            rw [hcon, ← hIj] at hqI
            exact hk0j (hIuniq k0 j hk0r hjN hqI)
        rw [hget, hItj, hceq j hjN]
      have inv0 : attachInv children (hq ++ [HObj.arr items]).length rs.length
          c g I P f 0 (hq ++ [HObj.arr items]) [] := by
        refine ⟨Nat.le_refl _, rfl, fun _ => 0, ?_, ?_⟩
        · intro j hj
          constructor
          · intro _
            rw [hceq j hj, hgeq j hj]
            exact getElem?_mono_append [HObj.arr items] (hCl j hj)
          · intro habs
            exact absurd rfl habs
        · intro j1 j2 h1N h2N hk1
          exact absurd rfl hk1
      obtain ⟨H', roots', hall0, hfin⟩ :=
        attachAll_build pid children hpc idMap items rs.length hNlen
          (hq ++ [HObj.arr items]).length c g I P f hfd hfr hcb hcinj hIuniq
          hmgf hgpid2 hgch2 rs.length 0 (hq ++ [HObj.arr items]) [] (by omega) inv0
      rw [List.drop_zero] at hall0
      obtain ⟨hlenf, hrootsf, Af, hcellsf, hAinjf⟩ := hfin
      refine ⟨H' ++ [HObj.arr roots'], H'.length, f, ?_, ?_, ?_, ?_⟩
      · exact arrayToTree_eq (m + 1) h (.ref ra) id pid children hclKeep hel hbm hall0
      · rw [List.getElem?_concat_length, hrootsf]
      · intro k hk
        by_cases hkk : kidsL P I rs.length k = []
        · exact ⟨c k, g k, hfr k hk,
            getElem?_mono_append [HObj.arr roots'] ((hcellsf k hk).1 hkk),
            hgid k hk, hgpid2 k hk⟩
        · obtain ⟨hcellk, -, -, -⟩ := (hcellsf k hk).2 hkk
          refine ⟨c k, setField (g k) children (.ref (Af k)), hfr k hk,
            getElem?_mono_append [HObj.arr roots'] hcellk, ?_, ?_⟩
          · rw [lookupField_setField_ne (g k) children _ id hic]
            exact hgid k hk
          · rw [lookupField_setField_ne (g k) children _ pid hpc]
            exact hgpid2 k hk
      · intro j hj
        constructor
        · intro hne2
          obtain ⟨hcellj, -, -, hArrj⟩ := (hcellsf j hj).2 hne2
          exact ⟨c j, setField (g j) children (.ref (Af j)), Af j, hfr j hj,
            getElem?_mono_append [HObj.arr roots'] hcellj,
            lookupField_setField_self (g j) children (.ref (Af j)),
            getElem?_mono_append [HObj.arr roots'] hArrj⟩
        · intro heq2
          exact ⟨c j, g j, hfr j hj,
            getElem?_mono_append [HObj.arr roots'] ((hcellsf j hj).1 heq2),
            hgch2 j hj⟩

/-- The claim's example input `[{id:1,pid:0},{id:2,pid:1},{id:3,pid:1}]`
as a heap. -/
def hEx4 : Heap :=
  [.obj [("id", .num 1), ("pid", .num 0)],
   .obj [("id", .num 2), ("pid", .num 1)],
   .obj [("id", .num 3), ("pid", .num 1)],
   .arr [.ref 0, .ref 1, .ref 2]]

/-- The heap `arrayToTree` produces on `hEx4`: one root (the clone of the
id-1 record, cell 4) whose children array (cell 8) holds the clones of
the id-2 and id-3 records in input order. -/
def hEx4Res : Heap :=
  [.obj [("id", .num 1), ("pid", .num 0)],
   .obj [("id", .num 2), ("pid", .num 1)],
   .obj [("id", .num 3), ("pid", .num 1)],
   .arr [.ref 0, .ref 1, .ref 2],
   .obj [("id", .num 1), ("pid", .num 0), ("children", .ref 8)],
   .obj [("id", .num 2), ("pid", .num 1)],
   .obj [("id", .num 3), ("pid", .num 1)],
   .arr [.ref 4, .ref 5, .ref 6],
   .arr [.ref 5, .ref 6],
   .arr [.ref 4]]

/-- Id values of the example records. -/
def exI4 : Nat → JSVal := fun k =>
  if k = 0 then .num 1 else if k = 1 then .num 2 else if k = 2 then .num 3
  else .undefined

/-- Parent-key values of the example records. -/
def exP4 : Nat → JSVal := fun k =>
  if k = 0 then .num 0 else if k < 3 then .num 1 else .undefined

/-- Witness for `arrayToTree_builds_tree` at the claim's example: the
concrete run yields exactly one root whose children are the records with
id 2 and id 3 in that order, and the theorem's hypotheses hold. -/
theorem arrayToTree_builds_tree_witness :
    arrayToTree 12 hEx4 (.ref 3) "id" "pid" "children" =
      some (.ok (hEx4Res, .ref 9)) ∧
    (∃ (h' : Heap) (rt : Nat) (C : Nat → JSVal),
      arrayToTree 12 hEx4 (.ref 3) "id" "pid" "children" =
        some (.ok (h', .ref rt)) ∧
      h'[rt]? = some (.arr ((rootsL exP4 3).map C)) ∧
      (∀ k, k < 3 → ∃ ck fsk, C k = .ref ck ∧ h'[ck]? = some (.obj fsk) ∧
        (lookupField fsk "id").getD .undefined = exI4 k ∧
        (lookupField fsk "pid").getD .undefined = exP4 k) ∧
      (∀ j, j < 3 →
        (kidsL exP4 exI4 3 j ≠ [] → ∃ cj fsj aj, C j = .ref cj ∧
          h'[cj]? = some (.obj fsj) ∧
          lookupField fsj "children" = some (.ref aj) ∧
          h'[aj]? = some (.arr ((kidsL exP4 exI4 3 j).map C))) ∧
        (kidsL exP4 exI4 3 j = [] → ∃ cj fsj, C j = .ref cj ∧
          h'[cj]? = some (.obj fsj) ∧ lookupField fsj "children" = none))) := by
  refine ⟨rfl, ?_⟩
  refine arrayToTree_builds_tree 12 hEx4 3 [.ref 0, .ref 1, .ref 2]
    "id" "pid" "children" exI4 exP4 (by decide) (by decide) (by decide) rfl
    ⟨_, _, rfl⟩ ?_ ?_ ?_ ?_ ?_
  · intro k hk
    have hk3 : k < 3 := hk
    interval_cases k
    · exact ⟨0, [("id", .num 1), ("pid", .num 0)], rfl, rfl, rfl, rfl, rfl⟩
    · exact ⟨1, [("id", .num 2), ("pid", .num 1)], rfl, rfl, rfl, rfl, rfl⟩
    · exact ⟨2, [("id", .num 3), ("pid", .num 1)], rfl, rfl, rfl, rfl, rfl⟩
  · intro k hk
    have hk3 : k < 3 := hk
    interval_cases k
    · rfl
    · rfl
    · rfl
  · intro k hk
    have hk3 : k < 3 := hk
    interval_cases k
    · rfl
    · rfl
    · rfl
  · intro k1 k2 h1 h2 he
    have h13 : k1 < 3 := h1
    have h23 : k2 < 3 := h2
    interval_cases k1 <;> interval_cases k2 <;>
      first | rfl | exact absurd he (by decide)
  · intro k hk htr2
    have hk3 : k < 3 := hk
    interval_cases k
    · exact absurd htr2 (by decide)
    · exact ⟨0, by decide, rfl⟩
    · exact ⟨0, by decide, rfl⟩
